import Mathlib

/-!
Verification development for the SnapShelf backend core
(src/SnapShelf-backend/server.js): a shallow embedding of the schema
validator, the canonicalizer, the identity resolver / merge policy, the
grocery comparison engine and the recipe feasibility classifier, together
with theorems settling the specification claims about them.

Strings are modelled through their character lists; JS values flowing
through the untyped parts of the code are modelled by the inductive
type `Js` below.
-/

namespace SnapShelf

/-- ASCII whitespace as recognized by the JS regex class backslash-s and by
`String.prototype.trim`: space, tab, line feed, vertical tab, form feed,
carriage return. -/
def isWS (c : Char) : Bool := c == ' ' || (decide (9 ≤ c.toNat) && decide (c.toNat ≤ 13))

/-- ASCII lowercase letter test. -/
def isLowerAZ (c : Char) : Bool := decide (97 ≤ c.toNat) && decide (c.toNat ≤ 122)

/-- ASCII uppercase letter test. -/
def isUpperAZ (c : Char) : Bool := decide (65 ≤ c.toNat) && decide (c.toNat ≤ 90)

/-- ASCII digit test. -/
def isDigit09 (c : Char) : Bool := decide (48 ≤ c.toNat) && decide (c.toNat ≤ 57)

/-- JS `toLowerCase` on a single ASCII character. -/
def jsToLower (c : Char) : Char := if isUpperAZ c then Char.ofNat (c.toNat + 32) else c

/-- JS `toUpperCase` on a single ASCII character. -/
def jsToUpper (c : Char) : Char := if isLowerAZ c then Char.ofNat (c.toNat - 32) else c

/-- JS `String.prototype.trim` on a character list: drop whitespace from
both ends. -/
def trimWS (cs : List Char) : List Char :=
  ((cs.dropWhile isWS).reverse.dropWhile isWS).reverse

/-- Helper for the JS replace of every whitespace run by a single space
(regex: one or more whitespace characters, global). The flag records
whether the previous character was whitespace (so the run was already
emitted as one space). -/
def collapseAux : Bool → List Char → List Char
  | _, [] => []
  | afterWS, c :: rest =>
    if isWS c then
      if afterWS then collapseAux true rest else ' ' :: collapseAux true rest
    else c :: collapseAux false rest

/-- JS `.replace` of every whitespace run by a single space. -/
def collapseWS (cs : List Char) : List Char := collapseAux false cs

/-- Characters kept by the canonicalizer strip step (JS regex: remove every
character that is not a lowercase letter, a digit or whitespace). -/
def keepChar (c : Char) : Bool := isLowerAZ c || isDigit09 c || isWS c

/-- The single suffix pass of `canonicalizeName` (server.js lines 400-410):
if the cleaned name ends in "ies" and is longer than 3, replace the suffix
by "y" (`slice` to all but the last three characters, plus "y"); else if it
ends in "es" and is longer than 2, strip "es"; else if it ends in "s" and
is longer than 1, strip "s". -/
def singularize (cs : List Char) : List Char :=
  if ['i', 'e', 's'].isSuffixOf cs && decide (3 < cs.length) then
    cs.take (cs.length - 3) ++ ['y']
  else if ['e', 's'].isSuffixOf cs && decide (2 < cs.length) then
    cs.take (cs.length - 2)
  else if ['s'].isSuffixOf cs && decide (1 < cs.length) then
    cs.take (cs.length - 1)
  else cs

/-- `canonicalizeName` (server.js lines 395-411) on a character list:
trim, lowercase, collapse whitespace runs, strip characters outside
lowercase letters / digits / whitespace; empty result short-circuits to
the empty name, otherwise one singularization pass runs. -/
def canonList (cs : List Char) : List Char :=
  let cleaned := collapseWS ((trimWS cs).map jsToLower)
  let alnum := cleaned.filter keepChar
  if alnum.isEmpty then [] else singularize alnum

/-- `canonicalizeName` (server.js lines 395-411). -/
def canonicalizeName (s : String) : String := String.mk (canonList s.data)

/-- JS `split` at single space characters (used by `toTitleCase` and
`capitalizeWords`); splitting the empty list yields one empty chunk, as
in JS. -/
def splitSp (cs : List Char) : List (List Char) :=
  cs.foldr
    (fun c ws =>
      if c == ' ' then [] :: ws
      else
        match ws with
        | [] => [[c]]
        | w :: rest => (c :: w) :: rest)
    [[]]

/-- Capitalize the first character of a word (JS `charAt 0` uppercased plus
`slice 1`). -/
def capWord : List Char → List Char
  | [] => []
  | c :: rest => jsToUpper c :: rest

/-- JS `join` with a single space. -/
def joinSp : List (List Char) → List Char
  | [] => []
  | [w] => w
  | w :: ws => w ++ ' ' :: joinSp ws

/-- Body shared by `capitalizeWords` (inside `normalizeItems`) and
`toTitleCase` (server.js lines 413-420 and 434-440): lowercase, split at
spaces, drop empty words, capitalize each word, join with spaces. -/
def capWordsList (cs : List Char) : List Char :=
  joinSp (((splitSp (cs.map jsToLower)).filter (fun w => !w.isEmpty)).map capWord)

/-- `capitalizeWords`, the helper defined inside `normalizeItems`
(server.js lines 434-440). -/
def capitalizeWords (s : String) : String := String.mk (capWordsList s.data)

/-- `toTitleCase` (server.js lines 413-420); its body is the same
transformation as `capitalizeWords`. -/
def toTitleCase (s : String) : String := String.mk (capWordsList s.data)

/-- JS `String.prototype.trim` on strings. -/
def jsTrim (s : String) : String := String.mk (trimWS s.data)

/-- JS `toLowerCase` on strings (ASCII). -/
def jsLowerStr (s : String) : String := String.mk (s.data.map jsToLower)

/-- The `normalize` helper of the compare and recommend routes
(server.js lines 627, 641, 694): lowercase, then trim. -/
def lowerTrim (s : String) : String := jsTrim (jsLowerStr s)

/-- `generateNameVariants` (server.js lines 422-431): the key itself, the
"ies" form when the key ends in "y", and the "s" and "es" plural forms.
The JS `Set` preserves insertion order; the four candidates are pairwise
distinct whenever they are generated, so a plain list is faithful. -/
def generateNameVariants (baseName : String) : List String :=
  if baseName = "" then []
  else
    (if baseName.data.getLast? = some 'y' then
      [baseName, String.mk (baseName.data.dropLast ++ ['i', 'e', 's'])]
     else [baseName]) ++ [baseName ++ "s", baseName ++ "es"]

example : canonicalizeName "  Cherry  Tomatoes!" = "cherry tomato" := by decide
example : canonicalizeName "apples" = "appl" := by decide
example : canonicalizeName "apple" = "apple" := by decide
example : canonicalizeName "berries" = "berry" := by decide
example : canonicalizeName "buses" = "bus" := by decide
example : canonicalizeName "bus" = "bu" := by decide
example : canonicalizeName "!!" = "" := by decide
example : capitalizeWords "red  apples" = "Red Apples" := by decide
example : toTitleCase "green tea" = "Green Tea" := by decide
example : generateNameVariants "berry" = ["berry", "berries", "berrys", "berryes"] := by decide
example : generateNameVariants "appl" = ["appl", "appls", "apples"] := by decide

/-! ## JS values

Untyped values flowing through the backend (request bodies, database
documents, parsed JSON) are modelled by `Js`. Numbers are rationals; the
model has no NaN or infinity value, and coercions that would produce NaN
return `none` instead. -/

/-- A JS value. -/
inductive Js where
  | undef : Js
  | null : Js
  | bool (b : Bool) : Js
  | num (q : ℚ) : Js
  | str (s : String) : Js
  | arr (elems : List Js) : Js
  | obj (fields : List (String × Js)) : Js

/-- JS property access `v.k` for data fields: defined on objects, `undefined`
elsewhere (prototype properties are not modelled). -/
def getField (v : Js) (k : String) : Js :=
  match v with
  | Js.obj fields =>
    match fields.find? (fun f => f.1 == k) with
    | some f => f.2
    | none => Js.undef
  | _ => Js.undef

/-- JS truthiness: `undefined`, `null`, `false`, `0` and the empty string are
falsy; every other value (including every array and object) is truthy. -/
def jsFalsy (v : Js) : Bool :=
  match v with
  | Js.undef => true
  | Js.null => true
  | Js.bool b => !b
  | Js.num q => q == 0
  | Js.str s => s == ""
  | _ => false

/-- Digit accumulator for `parseDecimal`. -/
def digitsVal (cs : List Char) : ℕ :=
  cs.foldl (fun acc c => 10 * acc + (c.toNat - '0'.toNat)) 0

/-- Unsigned decimal literal: digits with an optional fractional part.
Returns `none` when the shape is not a plain decimal numeral. -/
def parseUnsignedDec (cs : List Char) : Option ℚ :=
  let ip := cs.takeWhile isDigit09
  let rest := cs.dropWhile isDigit09
  match rest with
  | [] => if ip.isEmpty then none else some (digitsVal ip)
  | '.' :: fp =>
    if fp.all isDigit09 && !(ip.isEmpty && fp.isEmpty) then
      some ((digitsVal ip : ℚ) + (digitsVal fp : ℚ) / ((10 : ℚ) ^ fp.length))
    else none
  | _ => none

/-- JS string-to-number conversion for plain decimal numerals: the empty or
all-whitespace string converts to 0, a signed decimal numeral to its value,
anything else to NaN (`none`). Exponent and special forms are not modelled;
no claim depends on them. -/
def parseDecimal (s : String) : Option ℚ :=
  let cs := trimWS s.data
  match cs with
  | [] => some 0
  | '-' :: rest => (parseUnsignedDec rest).map (fun q => -q)
  | '+' :: rest => parseUnsignedDec rest
  | _ => parseUnsignedDec cs

/-- JS `Number(value)` coercion, with `none` standing for NaN. Arrays and
objects coerce through string conversion in JS; the model maps them to NaN,
which no claim depends on. -/
def jsToNum (v : Js) : Option ℚ :=
  match v with
  | Js.undef => none
  | Js.null => some 0
  | Js.bool b => some (if b then 1 else 0)
  | Js.num q => some q
  | Js.str s => parseDecimal s
  | Js.arr _ => none
  | Js.obj _ => none

/-- JS comparison `v >= bound` against a number literal: numeric comparison
after coercion, false when the coercion yields NaN. -/
def jsGeNum (v : Js) (bound : ℚ) : Bool :=
  match jsToNum v with
  | some q => decide (bound ≤ q)
  | none => false

/-- JS comparison `v <= bound` against a number literal. -/
def jsLeNum (v : Js) (bound : ℚ) : Bool :=
  match jsToNum v with
  | some q => decide (q ≤ bound)
  | none => false

/-- JS comparison `v > bound` against a number literal. -/
def jsGtNum (v : Js) (bound : ℚ) : Bool :=
  match jsToNum v with
  | some q => decide (bound < q)
  | none => false

/-- `Number.isFinite(v)`: true exactly on (finite) numbers; no coercion. -/
def jsIsFiniteNum (v : Js) : Bool :=
  match v with
  | Js.num _ => true
  | _ => false

/-- The finite numeric value of `v`, or a fallback (the
`Number.isFinite(v) ? v : d` idiom). -/
def finiteNumOr (v : Js) (d : ℚ) : ℚ :=
  match v with
  | Js.num q => q
  | _ => d

/-- JS `Math.round`: round half toward positive infinity, that is the floor
of `q + 1/2`, computed on numerator and denominator by flooring integer
division so that the kernel can evaluate it. -/
def jsRound (q : ℚ) : ℤ := Int.fdiv (2 * q.num + (q.den : ℤ)) (2 * (q.den : ℤ))

/-- JS `Math.max(0, r)` on an integer, written as a conditional so that the
kernel evaluates it. -/
def intMax0 (r : ℤ) : ℤ := if r < 0 then 0 else r

/-- JS `Math.max(0, q)` on a rational. -/
def ratMax0 (q : ℚ) : ℚ := if q < 0 then 0 else q

/-- `safeInteger` (server.js lines 442-446): coerce to a number; non-finite
values become 0; otherwise round and clamp to be nonnegative. -/
def safeInteger (v : Js) : ℚ :=
  match jsToNum v with
  | none => 0
  | some q => ((intMax0 (jsRound q) : ℤ) : ℚ)

/-- `SUPPORTED_CATEGORIES` (server.js lines 19-35). -/
def SUPPORTED_CATEGORIES : List String :=
  ["produce", "dairy", "meat", "drinks", "leftovers", "condiments", "frozen",
   "bakery", "snacks", "beverages", "seafood", "poultry", "grains", "spices",
   "chips"]

/-- One vetted item observation as produced by `normalizeItems`. -/
structure NormalizedItem where
  name : String
  canonicalName : String
  qty : ℚ
  expiresInDays : ℚ
  category : String
  bbox : Option (Js × Js × Js × Js)
  detectedAt : ℤ

/-- The raw (trimmed) name of a candidate item, empty when the `name` field
is not a string. -/
def rawNameOf (item : Js) : String :=
  match getField item "name" with
  | Js.str s => jsTrim s
  | _ => ""

/-- The lowercased raw category of a candidate item, empty when the
`category` field is not a string. -/
def rawCategoryOf (item : Js) : String :=
  match getField item "category" with
  | Js.str s => jsLowerStr s
  | _ => ""

/-- Bounding box validation inside `normalizeItems` (server.js lines
463-469): present exactly when the field is a four-element array whose
coordinates lie in the unit interval with strictly positive width and
height. -/
def checkBbox (v : Js) : Option (Js × Js × Js × Js) :=
  match v with
  | Js.arr [x, y, w, h] =>
    if jsGeNum x 0 && jsLeNum x 1 && jsGeNum y 0 && jsLeNum y 1 &&
       jsGtNum w 0 && jsLeNum w 1 && jsGtNum h 0 && jsLeNum h 1 then
      some (x, y, w, h)
    else none
  | _ => none

/-- The per-item body of `normalizeItems` (server.js lines 449-480):
`none` models the `null` returned for items without a usable name. -/
def normalizeOne (now : ℤ) (item : Js) : Option NormalizedItem :=
  let rawName := rawNameOf item
  let canonicalName := canonicalizeName rawName
  let displayName := capitalizeWords rawName
  if rawName = "" ∨ canonicalName = "" then none
  else
    some
      { name := displayName
        canonicalName := canonicalName
        qty := safeInteger (getField item "qty")
        expiresInDays := safeInteger (getField item "expiresInDays")
        category :=
          if SUPPORTED_CATEGORIES.contains (rawCategoryOf item) then
            rawCategoryOf item
          else "snacks"
        bbox := checkBbox (getField item "bbox")
        detectedAt := now }

/-- `normalizeItems` (server.js lines 433-482): map each candidate through
`normalizeOne` and drop the rejected ones (`.map` followed by
`.filter(Boolean)`). -/
def normalizeItems (now : ℤ) (items : List Js) : List NormalizedItem :=
  items.filterMap (normalizeOne now)

example : safeInteger (Js.num (mkRat 5 2)) = 3 := by decide
example : safeInteger (Js.num (-4)) = 0 := by decide
example : safeInteger Js.undef = 0 := by decide
example : safeInteger (Js.str "2") = 2 := by decide
example :
    (normalizeItems 0 [Js.obj [("name", Js.str " apples "), ("qty", Js.num 2)]]).map
      (fun it => (it.name, it.canonicalName, it.qty, it.category)) =
      [("Apples", "appl", 2, "snacks")] := by decide

/-! ## The schema validator of `callGeminiVision` (server.js lines 206-235)

The JSON text is recovered from the model output by stripping markdown
fences and slicing from the first opening brace to the last closing brace.
`JSON.parse` itself is an external library routine; it is taken as a
parameter `parse` of the validator, with `none` standing for a parse
exception. -/

/-- Does the list start with the four letters of "json" in any case
(the case-insensitive language tag of the leading fence regex)? -/
def startsJsonTag : List Char → Bool
  | a :: b :: c :: d :: _ =>
    jsToLower a == 'j' && jsToLower b == 's' && jsToLower c == 'o' &&
      jsToLower d == 'n'
  | _ => false

/-- The leading-fence replace (server.js line 213): remove three backticks,
an optional case-insensitive "json" tag, and any following whitespace
(the regex tail of whitespace and an optional newline collapses to
"all leading whitespace"). Strings not starting with three backticks are
unchanged. -/
def stripLeadFence (cs : List Char) : List Char :=
  if ['`', '`', '`'].isPrefixOf cs then
    let t := cs.drop 3
    let t2 := if startsJsonTag t then t.drop 4 else t
    t2.dropWhile isWS
  else cs

/-- The trailing-fence replace (server.js line 214): remove trailing
whitespace, three backticks and one optional newline before them, when the
string ends that way; otherwise leave it unchanged. Implemented on the
reversed list. -/
def stripTrailFence (cs : List Char) : List Char :=
  let r := cs.reverse.dropWhile isWS
  if ['`', '`', '`'].isPrefixOf r then
    let r2 := r.drop 3
    (if r2.head? = some '\n' then r2.tail else r2).reverse
  else cs

/-- The greedy brace match (server.js line 218, regex: an opening brace,
anything, a closing brace): the substring from the first opening brace to
the last closing brace after it, or `none` when there is no such span. -/
def braceSlice (cs : List Char) : Option (List Char) :=
  let d := cs.dropWhile (fun c => c != '{')
  if d.isEmpty then none
  else
    let e := d.reverse.dropWhile (fun c => c != '}')
    if e.isEmpty then none else some e.reverse

/-- The fence-stripped, trimmed text of the response (server.js lines
210-215). -/
def fenceCore (s : String) : List Char :=
  trimWS (stripTrailFence (stripLeadFence (trimWS s.data)))

/-- The JSON text handed to `JSON.parse` (server.js lines 210-223): trim,
strip the fences, trim again, and fall back to the whole string when no
brace span exists. -/
def extractJsonText (s : String) : String :=
  match braceSlice (fenceCore s) with
  | some j => String.mk j
  | none => String.mk (fenceCore s)

/-- Structural failures of the schema validator. -/
inductive GemError where
  | parseFail : GemError
  | noItemsArray : GemError
deriving DecidableEq

/-- The post-parse checks of `callGeminiVision` (server.js lines 223-235):
a parse exception or a parsed value that is falsy or lacks an array-valued
`items` field is an error; otherwise the raw item list is returned. -/
def geminiExtractItems (parse : String → Option Js) (content : String) :
    Except GemError (List Js) :=
  match parse (extractJsonText content) with
  | none => Except.error GemError.parseFail
  | some v =>
    if jsFalsy v then Except.error GemError.noItemsArray
    else
      match getField v "items" with
      | Js.arr l => Except.ok l
      | _ => Except.error GemError.noItemsArray

/-- Wrapping a payload in a fenced code block: an opening delimiter line
(optionally tagged "json") and a closing delimiter line. -/
def wrapFenced (tag : Bool) (p : String) : String :=
  (if tag then "```json\n" else "```\n") ++ p ++ "\n```"

example : extractJsonText "```json\n hi \x7ba:1\x7d ok\n```" = "\x7ba:1\x7d" := by decide
example : extractJsonText " hi \x7ba:1\x7d ok" = "\x7ba:1\x7d" := by decide
example : extractJsonText "```\nplain\n```" = "plain" := by decide

/-! ## The grocery comparison engine (route `/grocery/compare`,
server.js lines 615-666) -/

/-- A fridge document as read by the comparison and recommendation routes:
only the `name` and `qty` fields matter to them. -/
structure FridgeDoc where
  name : Js
  qty : Js

/-- A grocery-list document as read by the comparison route. -/
structure GroceryDoc where
  name : Js
  qtyNeeded : Js

/-- The lowercased-and-trimmed string key of a `name` field, empty when the
field is not a string (the `typeof item.name === 'string'` guards). -/
def nameKey (v : Js) : String :=
  match v with
  | Js.str s => lowerTrim s
  | _ => ""

/-- Add a quantity under a key in an insertion-ordered association list
(the JS `map[k] = (map[k] || 0) + qty` update; the `|| 0` is the identity
on the stored numbers). -/
def bumpQty : List (String × ℚ) → String → ℚ → List (String × ℚ)
  | [], k, q => [(k, q)]
  | (k0, v) :: rest, k, q =>
    if k0 = k then (k0, v + q) :: rest else (k0, v) :: bumpQty rest k q

/-- The fridge quantity map built by both the compare route (lines 626-632)
and the recommend route (lines 696-702): sum the finite quantities of the
fridge items under their lowercased trimmed names, skipping unusable
names. -/
def fridgeQtyMap (items : List FridgeDoc) : List (String × ℚ) :=
  items.foldl
    (fun map item =>
      let k := nameKey item.name
      if k = "" then map else bumpQty map k (finiteNumOr item.qty 0))
    []

/-- Lookup in the fridge map with default 0 (the `fridgeMap[normalized]
|| 0` read; `|| 0` maps a stored 0 to 0 and is the identity otherwise). -/
def lookupQty (map : List (String × ℚ)) (k : String) : ℚ :=
  match map.find? (fun f => f.1 == k) with
  | some f => f.2
  | none => 0

/-- Membership test of the recommend route (`fridgeMap[ingName] !==
undefined`, line 716). -/
def hasKey (map : List (String × ℚ)) (k : String) : Bool :=
  (map.find? (fun f => f.1 == k)).isSome

/-- Satisfaction tiers of the comparison engine. -/
inductive GBucket where
  | fully : GBucket
  | partly : GBucket
  | missing : GBucket
deriving DecidableEq

/-- The classification chain of the compare route (server.js lines
652-658): fully satisfied when the fridge covers a positive need, partly
satisfied when the fridge has some but not enough, missing otherwise. -/
def classifyGrocery (inFridge needed : ℚ) : GBucket :=
  if needed ≤ inFridge ∧ 0 < needed then GBucket.fully
  else if 0 < inFridge ∧ inFridge < needed then GBucket.partly
  else GBucket.missing

/-- One entry of the comparison result payload. -/
structure ComparePayload where
  name : String
  qtyNeeded : ℚ
  qtyInFridge : ℚ
deriving DecidableEq

/-- The three result buckets of the compare route. -/
structure CompareResult where
  fully : List ComparePayload
  partly : List ComparePayload
  missing : List ComparePayload
deriving DecidableEq

/-- The payload pushed for one grocery entry (server.js lines 646-650).
The entry reaches this point only with a string name, so the
`grocery.name || ''` read is that string. -/
def comparePayloadOf (g : GroceryDoc) (needed inFridge : ℚ) : ComparePayload :=
  { name := toTitleCase (match g.name with | Js.str s => s | _ => "")
    qtyNeeded := needed
    qtyInFridge := inFridge }

/-- The body of the `groceryItems.forEach` loop (server.js lines 640-659)
acting on the accumulated result. -/
def compareStep (map : List (String × ℚ)) (acc : CompareResult)
    (g : GroceryDoc) : CompareResult :=
  let k := nameKey g.name
  if k = "" then acc
  else
    let needed := finiteNumOr g.qtyNeeded 0
    let inFridge := lookupQty map k
    let payload := comparePayloadOf g needed inFridge
    match classifyGrocery inFridge needed with
    | GBucket.fully => { acc with fully := acc.fully ++ [payload] }
    | GBucket.partly => { acc with partly := acc.partly ++ [payload] }
    | GBucket.missing => { acc with missing := acc.missing ++ [payload] }

/-- The compare route `/grocery/compare` (server.js lines 615-666). -/
def groceryCompare (fridgeItems : List FridgeDoc) (groceryItems : List GroceryDoc) :
    CompareResult :=
  let map := fridgeQtyMap fridgeItems
  groceryItems.foldl (compareStep map) { fully := [], partly := [], missing := [] }

example :
    groceryCompare [⟨Js.str "Milk", Js.num 2⟩]
      [⟨Js.str "Milk", Js.num 5⟩, ⟨Js.str "Eggs", Js.num 0⟩] =
      { fully := [], partly := [⟨"Milk", 5, 2⟩], missing := [⟨"Eggs", 0, 0⟩] } := by
  decide

/-! ## The recipe feasibility classifier (route `/recipes/recommend`,
server.js lines 683-747) together with `sanitizeRecipe`
(server.js lines 484-506) -/

/-- A recipe document as stored in the catalog. -/
structure RecipeDoc where
  rid : Js
  title : Js
  description : Js
  instructions : Js
  category : Js
  imgUrl : Js
  ingredients : Js

/-- A sanitized ingredient (`sanitizeRecipe`, lines 491-494): the name
defaults to the empty string, the quantity to 0 when not a finite
number. -/
structure SanIng where
  name : String
  qty : ℚ
deriving DecidableEq

/-- Sanitize one raw ingredient value. -/
def sanitizeIng (v : Js) : SanIng :=
  { name := match getField v "name" with | Js.str s => s | _ => ""
    qty := finiteNumOr (getField v "qty") 0 }

/-- The raw ingredient list of a recipe document, empty when the field is
not an array. -/
def rawIngredients (d : RecipeDoc) : List Js :=
  match d.ingredients with
  | Js.arr l => l
  | _ => []

/-- A sanitized recipe (`sanitizeRecipe`, server.js lines 484-506). -/
structure SanRecipe where
  rid : Js
  title : String
  category : String
  description : String
  instructions : String
  imgUrl : String
  ingredients : List SanIng

/-- `sanitizeRecipe` (server.js lines 484-506). -/
def sanitizeRecipe (d : RecipeDoc) : SanRecipe :=
  { rid := d.rid
    title :=
      match d.title with
      | Js.str s => if jsTrim s = "" then "Untitled Recipe" else jsTrim s
      | _ => "Untitled Recipe"
    category := match d.category with | Js.str s => s | _ => ""
    description := match d.description with | Js.str s => s | _ => ""
    instructions := match d.instructions with | Js.str s => s | _ => ""
    imgUrl := match d.imgUrl with | Js.str s => s | _ => ""
    ingredients := (rawIngredients d).map sanitizeIng }

/-- A missing ingredient entry of the recommendation payload. -/
structure MissIng where
  name : String
  qtyNeeded : ℚ
deriving DecidableEq

/-- The per-recipe payload of the recommend route (server.js lines
724-733). -/
structure RecPayload where
  title : String
  recipeId : Js
  missingIngredients : List MissIng
  availableIngredients : List String
  description : String
  imgUrl : String
  category : String
  ingredients : List SanIng

/-- The ingredient loop of the recommend route (server.js lines 712-722):
ingredients with an empty normalized name are skipped; present names are
collected as available; absent ones as missing. After `sanitizeRecipe`
every ingredient quantity is a finite number, so the
`Number.isFinite(ing.qty) ? ing.qty : 1` read returns the sanitized
quantity. -/
def splitIngStep (map : List (String × ℚ)) (acc : List MissIng × List String)
    (ing : SanIng) : List MissIng × List String :=
  let ingName := lowerTrim ing.name
  if ingName = "" then acc
  else if hasKey map ingName then (acc.1, acc.2 ++ [ing.name])
  else (acc.1 ++ [{ name := ing.name, qtyNeeded := ing.qty }], acc.2)

/-- The ingredient loop as a fold over the sanitized ingredients. -/
def splitIngredients (map : List (String × ℚ)) (ings : List SanIng) :
    List MissIng × List String :=
  ings.foldl (splitIngStep map) ([], [])

/-- The payload built for one recipe by the recommend route. -/
def recipePayload (map : List (String × ℚ)) (d : RecipeDoc) : RecPayload :=
  let safeRecipe := sanitizeRecipe d
  let split := splitIngredients map safeRecipe.ingredients
  { title := safeRecipe.title
    recipeId := safeRecipe.rid
    missingIngredients := split.1
    availableIngredients := split.2
    description := safeRecipe.description
    imgUrl := safeRecipe.imgUrl
    category := safeRecipe.category
    ingredients := safeRecipe.ingredients }

/-- The recommend route `/recipes/recommend` (server.js lines 683-747):
bucket each recipe by its number of missing ingredients (0 fully
makeable, 1 or 2 almost makeable, otherwise dropped). -/
def recommendStep (map : List (String × ℚ))
    (acc : List RecPayload × List RecPayload) (d : RecipeDoc) :
    List RecPayload × List RecPayload :=
  let payload := recipePayload map d
  if payload.missingIngredients.length = 0 then (acc.1 ++ [payload], acc.2)
  else if payload.missingIngredients.length ≤ 2 then (acc.1, acc.2 ++ [payload])
  else acc

def recommendClassify (fridgeItems : List FridgeDoc) (recipes : List RecipeDoc) :
    List RecPayload × List RecPayload :=
  recipes.foldl (recommendStep (fridgeQtyMap fridgeItems)) ([], [])

/-- The number of ingredients of a recipe counted missing by the code:
those with a nonempty normalized name that is absent from the fridge
map. -/
def codeMissingCount (fridgeItems : List FridgeDoc) (d : RecipeDoc) : ℕ :=
  (((sanitizeRecipe d).ingredients).filter
    (fun ing =>
      lowerTrim ing.name ≠ "" ∧ hasKey (fridgeQtyMap fridgeItems) (lowerTrim ing.name) = false)).length

/-- Modelled from the claim wording of C5 (not from the source): an
ingredient is missing exactly when its lowercase-trimmed name is absent
from the set of lowercase-trimmed inventory names, with no exception for
empty names. -/
def claimMissingCount (fridgeItems : List FridgeDoc) (d : RecipeDoc) : ℕ :=
  (((sanitizeRecipe d).ingredients).filter
    (fun ing => hasKey (fridgeQtyMap fridgeItems) (lowerTrim ing.name) = false)).length

/-! ## The identity resolver / merge policy of `/analyze-fridge`
(server.js lines 818-938)

Records written by this route always carry the fields below; the
`Number.isFinite(existingItem?.qty)` guard is the identity on the modelled
numeric quantities. The image blobs attached before the merge
(server.js lines 853-885) come from the external cropping collaborator and
are carried opaquely as strings. -/

/-- An inventory record of the `items` collection. -/
structure StoredItem where
  name : String
  canonicalName : String
  qty : ℚ
  expiresInDays : ℚ
  category : String
  bbox : Option (Js × Js × Js × Js)
  detectedAt : ℤ
  imageData : String
  imageMimeType : String
  fullImageData : String

/-- One observation of the analyze loop after the image fields were
attached (`itemWithImage`, server.js lines 879-885). -/
structure ObsItem extends NormalizedItem where
  imageData : String
  imageMimeType : String
  fullImageData : String

/-- The canonical key used by the loop (server.js line 888):
`itemWithImage.canonicalName || canonicalizeName(itemWithImage.name)`. -/
def obsKey (o : ObsItem) : String :=
  if o.canonicalName = "" then canonicalizeName o.name else o.canonicalName

/-- The disjunctive `findOne` / `updateOne` filter (server.js lines
890-895 and 905-911): canonical-name equality, or stored display name
among the variants of the key. -/
def matchesQuery (key : String) (r : StoredItem) : Bool :=
  r.canonicalName == key || (generateNameVariants key).contains r.name

/-- The `$set` payload of the merge (server.js lines 899-903): every field
comes from the new observation, except the quantity which accumulates. -/
def mergedPayload (key : String) (existingQty : ℚ) (o : ObsItem) : StoredItem :=
  { name := o.name
    canonicalName := key
    qty := ratMax0 (existingQty + o.qty)
    expiresInDays := o.expiresInDays
    category := o.category
    bbox := o.bbox
    detectedAt := o.detectedAt
    imageData := o.imageData
    imageMimeType := o.imageMimeType
    fullImageData := o.fullImageData }

/-- Replace the first record satisfying the filter (`updateOne` updates a
single matching document). -/
def replaceFirst (p : StoredItem → Bool) (x : StoredItem) :
    List StoredItem → List StoredItem
  | [] => []
  | r :: rest => if p r then x :: rest else r :: replaceFirst p x rest

/-- One iteration of the analyze loop (server.js lines 887-916): find the
existing record by the disjunctive filter, accumulate its quantity into
the payload, and update it in place, or insert the payload when nothing
matches (`upsert: true`). -/
def processObservation (store : List StoredItem) (o : ObsItem) : List StoredItem :=
  let key := obsKey o
  match store.find? (matchesQuery key) with
  | some existing =>
    replaceFirst (matchesQuery key) (mergedPayload key existing.qty o) store
  | none => store ++ [mergedPayload key 0 o]

/-- The whole analyze batch: observations merged one at a time, in order
(server.js line 853). -/
def analyzeBatch (store : List StoredItem) (obsList : List ObsItem) :
    List StoredItem :=
  obsList.foldl processObservation store

/-- The stored quantity under a canonical key, when a record with that
canonical name exists. -/
def qtyForKey (store : List StoredItem) (key : String) : Option ℚ :=
  (store.find? (fun r => r.canonicalName == key)).map (fun r => r.qty)

/-! ## Claim C2: classification tiers of the comparison engine -/

/-- Written after the claim wording of C2: an entry is fully satisfied
exactly when the available quantity covers a positive need. -/
def specFullyEntry (map : List (String × ℚ)) (g : GroceryDoc) :
    Option ComparePayload :=
  let k := nameKey g.name
  let needed := finiteNumOr g.qtyNeeded 0
  let avail := lookupQty map k
  if k ≠ "" ∧ needed ≤ avail ∧ 0 < needed then
    some (comparePayloadOf g needed avail)
  else none

/-- Written after the claim wording of C2: an entry is partly satisfied
exactly when the available quantity is positive but below the need. -/
def specPartlyEntry (map : List (String × ℚ)) (g : GroceryDoc) :
    Option ComparePayload :=
  let k := nameKey g.name
  let needed := finiteNumOr g.qtyNeeded 0
  let avail := lookupQty map k
  if k ≠ "" ∧ 0 < avail ∧ avail < needed then
    some (comparePayloadOf g needed avail)
  else none

/-- Written after the claim wording of C2: an entry is missing exactly
when it is neither fully nor partly satisfied. -/
def specMissingEntry (map : List (String × ℚ)) (g : GroceryDoc) :
    Option ComparePayload :=
  let k := nameKey g.name
  let needed := finiteNumOr g.qtyNeeded 0
  let avail := lookupQty map k
  if k ≠ "" ∧ ¬(needed ≤ avail ∧ 0 < needed) ∧ ¬(0 < avail ∧ avail < needed) then
    some (comparePayloadOf g needed avail)
  else none

lemma classifyGrocery_fully_iff (a n : ℚ) :
    classifyGrocery a n = GBucket.fully ↔ n ≤ a ∧ 0 < n := by
  unfold classifyGrocery
  split_ifs with h1 h2
  · exact iff_of_true rfl h1
  · exact iff_of_false (by decide) h1
  · exact iff_of_false (by decide) h1

lemma classifyGrocery_partly_iff (a n : ℚ) :
    classifyGrocery a n = GBucket.partly ↔ 0 < a ∧ a < n := by
  unfold classifyGrocery
  split_ifs with h1 h2
  · exact iff_of_false (by decide) (fun hc => absurd h1.1 (not_le.mpr hc.2))
  · exact iff_of_true rfl h2
  · exact iff_of_false (by decide) h2

lemma classifyGrocery_missing_iff (a n : ℚ) :
    classifyGrocery a n = GBucket.missing ↔
      ¬(n ≤ a ∧ 0 < n) ∧ ¬(0 < a ∧ a < n) := by
  unfold classifyGrocery
  split_ifs with h1 h2
  · exact iff_of_false (by decide) (fun hc => hc.1 h1)
  · exact iff_of_false (by decide) (fun hc => hc.2 h2)
  · exact iff_of_true rfl ⟨h1, h2⟩

lemma compare_foldl (map : List (String × ℚ)) (gs : List GroceryDoc)
    (acc : CompareResult) :
    gs.foldl (compareStep map) acc =
      { fully := acc.fully ++ gs.filterMap (specFullyEntry map)
        partly := acc.partly ++ gs.filterMap (specPartlyEntry map)
        missing := acc.missing ++ gs.filterMap (specMissingEntry map) } := by
  induction gs generalizing acc with
  | nil => simp
  | cons g gs ih =>
    rw [List.foldl_cons, ih]
    by_cases hk : nameKey g.name = ""
    · have e1 : compareStep map acc g = acc := by
        simp [compareStep, hk]
      have f1 : specFullyEntry map g = none := by
        simp [specFullyEntry, hk]
      have f2 : specPartlyEntry map g = none := by
        simp [specPartlyEntry, hk]
      have f3 : specMissingEntry map g = none := by
        simp [specMissingEntry, hk]
      simp [List.filterMap_cons, e1, f1, f2, f3]
    · rcases hcl : classifyGrocery (lookupQty map (nameKey g.name))
        (finiteNumOr g.qtyNeeded 0) with _ | _ | _
      · have hc := (classifyGrocery_fully_iff _ _).mp hcl
        have e1 : compareStep map acc g =
            { acc with fully := acc.fully ++
                [comparePayloadOf g (finiteNumOr g.qtyNeeded 0)
                  (lookupQty map (nameKey g.name))] } := by
          simp only [compareStep, if_neg hk, hcl]
        have f1 : specFullyEntry map g =
            some (comparePayloadOf g (finiteNumOr g.qtyNeeded 0)
              (lookupQty map (nameKey g.name))) := by
          simp only [specFullyEntry, if_pos (And.intro hk hc)]
        have f2 : specPartlyEntry map g = none := by
          refine if_neg (fun h => absurd hc.1 (not_le.mpr h.2.2))
        have f3 : specMissingEntry map g = none := by
          refine if_neg (fun h => h.2.1 hc)
        simp [List.filterMap_cons, e1, f1, f2, f3]
      · have hc := (classifyGrocery_partly_iff _ _).mp hcl
        have e1 : compareStep map acc g =
            { acc with partly := acc.partly ++
                [comparePayloadOf g (finiteNumOr g.qtyNeeded 0)
                  (lookupQty map (nameKey g.name))] } := by
          simp only [compareStep, if_neg hk, hcl]
        have f1 : specFullyEntry map g = none := by
          refine if_neg (fun h => absurd h.2.1 (not_le.mpr hc.2))
        have f2 : specPartlyEntry map g =
            some (comparePayloadOf g (finiteNumOr g.qtyNeeded 0)
              (lookupQty map (nameKey g.name))) := by
          simp only [specPartlyEntry, if_pos (And.intro hk hc)]
        have f3 : specMissingEntry map g = none := by
          refine if_neg (fun h => h.2.2 hc)
        simp [List.filterMap_cons, e1, f1, f2, f3]
      · have hc := (classifyGrocery_missing_iff _ _).mp hcl
        have e1 : compareStep map acc g =
            { acc with missing := acc.missing ++
                [comparePayloadOf g (finiteNumOr g.qtyNeeded 0)
                  (lookupQty map (nameKey g.name))] } := by
          simp only [compareStep, if_neg hk, hcl]
        have f1 : specFullyEntry map g = none := by
          refine if_neg (fun h => hc.1 h.2)
        have f2 : specPartlyEntry map g = none := by
          refine if_neg (fun h => hc.2 h.2)
        have f3 : specMissingEntry map g =
            some (comparePayloadOf g (finiteNumOr g.qtyNeeded 0)
              (lookupQty map (nameKey g.name))) := by
          simp only [specMissingEntry, if_pos (And.intro hk hc)]
        simp [List.filterMap_cons, e1, f1, f2, f3]

/-- C2: for every grocery entry with a non-empty trimmed name, the
comparison engine classifies it as fully satisfied exactly when the
available quantity covers a positive need, as partly satisfied exactly
when the available quantity is positive but below the need, and as
missing otherwise; in particular an entry whose needed quantity is 0 is
classified missing regardless of the available quantity. -/
theorem grocery_compare_classification
    (fridgeItems : List FridgeDoc) (groceryItems : List GroceryDoc) :
    groceryCompare fridgeItems groceryItems =
      { fully := groceryItems.filterMap (specFullyEntry (fridgeQtyMap fridgeItems))
        partly := groceryItems.filterMap (specPartlyEntry (fridgeQtyMap fridgeItems))
        missing :=
          groceryItems.filterMap (specMissingEntry (fridgeQtyMap fridgeItems)) } ∧
      ∀ avail : ℚ, classifyGrocery avail 0 = GBucket.missing := by
  constructor
  · have h := compare_foldl (fridgeQtyMap fridgeItems) groceryItems
      { fully := [], partly := [], missing := [] }
    simpa [groceryCompare] using h
  · intro avail
    refine (classifyGrocery_missing_iff avail 0).mpr ?_
    constructor
    · exact fun hc => absurd hc.2 (lt_irrefl 0)
    · exact fun hc => absurd (hc.1.trans hc.2) (lt_irrefl 0)

/-! ## Claim C3: idempotence of the canonicalizer -/

/-- A character that canonical keys are built from: lowercase letter,
digit, or space. -/
def allowedChar (c : Char) : Bool := isLowerAZ c || isDigit09 c || c == ' '

/-- No two adjacent spaces. -/
def noDoubleSpace : List Char → Bool
  | [] => true
  | [_] => true
  | a :: b :: rest => !(a == ' ' && b == ' ') && noDoubleSpace (b :: rest)

/-- Normal spacing: no leading space, no trailing space, no two adjacent
spaces. -/
def wsNormal (cs : List Char) : Bool :=
  (cs.head? != some ' ') && (cs.getLast? != some ' ') && noDoubleSpace cs

lemma allowed_keep {c : Char} (h : allowedChar c = true) : keepChar c = true := by
  simp only [allowedChar, Bool.or_eq_true, beq_iff_eq] at h
  simp only [keepChar, isWS, Bool.or_eq_true, beq_iff_eq]
  rcases h with (h | h) | h
  · exact Or.inl (Or.inl h)
  · exact Or.inl (Or.inr h)
  · exact Or.inr (Or.inl h)

lemma allowed_not_upper {c : Char} (h : allowedChar c = true) :
    isUpperAZ c = false := by
  simp only [allowedChar, isLowerAZ, isDigit09, Bool.or_eq_true, Bool.and_eq_true,
    decide_eq_true_eq, beq_iff_eq] at h
  simp only [isUpperAZ, Bool.and_eq_false_iff, decide_eq_false_iff_not]
  rcases h with (h | h) | h
  · omega
  · omega
  · subst h
    decide

lemma allowed_ws_space {c : Char} (h : allowedChar c = true)
    (hw : isWS c = true) : c = ' ' := by
  simp only [allowedChar, isLowerAZ, isDigit09, Bool.or_eq_true, Bool.and_eq_true,
    decide_eq_true_eq, beq_iff_eq] at h
  simp only [isWS, Bool.or_eq_true, Bool.and_eq_true, decide_eq_true_eq,
    beq_iff_eq] at hw
  rcases hw with hw | hw
  · exact hw
  · rcases h with (h | h) | h
    · exact absurd hw.2 (by omega)
    · exact absurd hw.1 (by omega)
    · exact h

lemma allowed_space_not_ws {c : Char} (h : allowedChar c = true)
    (hne : c ≠ ' ') : isWS c = false :=
  Bool.eq_false_iff.mpr (fun hws => hne (allowed_ws_space h hws))

lemma collapseAux_mem {b : Bool} {cs : List Char} {c : Char}
    (h : c ∈ collapseAux b cs) : c = ' ' ∨ isWS c = false := by
  induction cs generalizing b with
  | nil => cases h
  | cons d rest ih =>
    by_cases hd : isWS d = true
    · rcases b with _ | _
      · simp only [collapseAux, hd, if_true, Bool.false_eq_true, if_false] at h
        rcases List.mem_cons.mp h with h1 | h1
        · exact Or.inl h1
        · exact ih h1
      · simp only [collapseAux, hd, if_true] at h
        exact ih h
    · simp only [collapseAux, hd, Bool.false_eq_true, if_false] at h
      rcases List.mem_cons.mp h with h1 | h1
      · subst h1
        exact Or.inr (Bool.eq_false_iff.mpr hd)
      · exact ih h1

lemma singularize_mem {cs : List Char} {c : Char} (h : c ∈ singularize cs) :
    c ∈ cs ∨ c = 'y' := by
  unfold singularize at h
  split_ifs at h with h1 h2 h3
  · rcases List.mem_append.mp h with h4 | h4
    · exact Or.inl (List.take_subset _ _ h4)
    · exact Or.inr (List.mem_singleton.mp h4)
  · exact Or.inl (List.take_subset _ _ h)
  · exact Or.inl (List.take_subset _ _ h)
  · exact Or.inl h

/-- Every character of a canonical key is a lowercase letter, a digit or a
space. -/
lemma canonList_allowed {cs : List Char} {c : Char} (h : c ∈ canonList cs) :
    allowedChar c = true := by
  unfold canonList at h
  by_cases he :
      ((collapseWS ((trimWS cs).map jsToLower)).filter keepChar).isEmpty = true
  · rw [if_pos he] at h
    cases h
  · rw [if_neg he] at h
    have base :
        ∀ d ∈ (collapseWS ((trimWS cs).map jsToLower)).filter keepChar,
          allowedChar d = true := by
      intro d hd
      have hk : keepChar d = true := List.of_mem_filter hd
      have hm : d ∈ collapseWS ((trimWS cs).map jsToLower) :=
        List.mem_of_mem_filter hd
      rcases collapseAux_mem hm with h1 | h1
      · subst h1
        decide
      · simp only [keepChar, Bool.or_eq_true] at hk
        rcases hk with (hk | hk) | hk
        · simp [allowedChar, hk]
        · simp [allowedChar, hk]
        · rw [hk] at h1
          cases h1
    rcases singularize_mem h with h1 | h1
    · exact base c h1
    · subst h1; decide

lemma dropWhile_id_of_head {cs : List Char}
    (h : ∀ c ∈ cs, allowedChar c = true) (hh : cs.head? ≠ some ' ') :
    cs.dropWhile isWS = cs := by
  cases cs with
  | nil => rfl
  | cons c rest =>
    have hc : c ≠ ' ' := fun hc => hh (by rw [hc]; rfl)
    have : isWS c = false :=
      allowed_space_not_ws (h c (List.mem_cons_self c rest)) hc
    simp [List.dropWhile_cons, this]

lemma trimWS_id {cs : List Char} (h : ∀ c ∈ cs, allowedChar c = true)
    (hh : cs.head? ≠ some ' ') (hl : cs.getLast? ≠ some ' ') :
    trimWS cs = cs := by
  unfold trimWS
  rw [dropWhile_id_of_head h hh]
  have hrev : ∀ c ∈ cs.reverse, allowedChar c = true := by
    intro c hc
    exact h c (List.mem_reverse.mp hc)
  have hrh : cs.reverse.head? ≠ some ' ' := by
    rw [List.head?_reverse]
    exact hl
  rw [dropWhile_id_of_head hrev hrh, List.reverse_reverse]

lemma map_jsToLower_id {cs : List Char} (h : ∀ c ∈ cs, allowedChar c = true) :
    cs.map jsToLower = cs := by
  have : ∀ c ∈ cs, jsToLower c = c := by
    intro c hc
    simp [jsToLower, allowed_not_upper (h c hc)]
  calc cs.map jsToLower = cs.map id := List.map_congr_left this
    _ = cs := List.map_id cs

lemma collapseAux_true_eq_false {cs : List Char}
    (hh : ∀ c, cs.head? = some c → isWS c = false) :
    collapseAux true cs = collapseAux false cs := by
  cases cs with
  | nil => rfl
  | cons c rest =>
    have : isWS c = false := hh c rfl
    simp [collapseAux, this]

lemma collapseAux_false_id :
    ∀ cs : List Char, (∀ c ∈ cs, allowedChar c = true) →
      noDoubleSpace cs = true → collapseAux false cs = cs := by
  intro cs
  induction cs with
  | nil => intro _ _; rfl
  | cons c rest ih =>
    intro h hd
    have hrest : ∀ x ∈ rest, allowedChar x = true :=
      fun x hx => h x (List.mem_cons_of_mem c hx)
    have hdr : noDoubleSpace rest = true := by
      cases rest with
      | nil => rfl
      | cons d rest2 =>
        simp only [noDoubleSpace, Bool.and_eq_true] at hd
        exact hd.2
    by_cases hws : isWS c = true
    · have hsp : c = ' ' := allowed_ws_space (h c (List.mem_cons_self c rest)) hws
      have hflag : collapseAux true rest = collapseAux false rest := by
        refine collapseAux_true_eq_false ?_
        intro d hhead
        cases rest with
        | nil => cases hhead
        | cons e rest2 =>
          have hde : e = d := by
            simpa using hhead
          subst hde
          rw [hsp] at hd
          simp only [noDoubleSpace, Bool.and_eq_true, Bool.not_eq_true',
            Bool.and_eq_false_iff, beq_eq_false_iff_ne, ne_eq] at hd
          have hdne : e ≠ ' ' := by
            rcases hd.1 with h1 | h1
            · exact absurd trivial h1
            · exact h1
          exact allowed_space_not_ws (hrest e (List.mem_cons_self e rest2)) hdne
      have step : collapseAux false (c :: rest) = ' ' :: collapseAux true rest := by
        simp [collapseAux, hws]
      rw [step, hflag, ih hrest hdr, hsp]
    · have hws' : isWS c = false := Bool.eq_false_iff.mpr hws
      have step : collapseAux false (c :: rest) = c :: collapseAux false rest := by
        simp [collapseAux, hws']
      rw [step, ih hrest hdr]

lemma collapseWS_id {cs : List Char} (h : ∀ c ∈ cs, allowedChar c = true)
    (hd : noDoubleSpace cs = true) : collapseWS cs = cs :=
  collapseAux_false_id cs h hd

lemma suffix_last_s {cs pre : List Char}
    (h : (pre ++ ['s']).isSuffixOf cs = true) : cs.getLast? = some 's' := by
  rcases List.isSuffixOf_iff_suffix.mp h with ⟨t, ht⟩
  rw [← ht, ← List.append_assoc]
  exact List.getLast?_concat _

lemma singularize_id {cs : List Char} (hl : cs.getLast? ≠ some 's') :
    singularize cs = cs := by
  unfold singularize
  split_ifs with h1 h2 h3
  · simp only [Bool.and_eq_true] at h1
    exact absurd (@suffix_last_s _ ['i', 'e'] h1.1) hl
  · simp only [Bool.and_eq_true] at h2
    exact absurd (@suffix_last_s _ ['e'] h2.1) hl
  · simp only [Bool.and_eq_true] at h3
    exact absurd (@suffix_last_s _ [] h3.1) hl
  · rfl

lemma string_mk_data (s : String) : String.mk s.data = s := rfl

/-- The canonicalizer is the identity on strings made of allowed
characters, with normal spacing, not ending in the letter s. -/
lemma canonicalizeName_id {y : String}
    (h : ∀ c ∈ y.data, allowedChar c = true)
    (hw : wsNormal y.data = true)
    (hs : y.data.getLast? ≠ some 's') : canonicalizeName y = y := by
  simp only [wsNormal, Bool.and_eq_true, bne_iff_ne, ne_eq] at hw
  have e1 : trimWS y.data = y.data := trimWS_id h hw.1.1 hw.1.2
  have e2 : y.data.map jsToLower = y.data := map_jsToLower_id h
  have e3 : collapseWS y.data = y.data := collapseWS_id h hw.2
  have e4 : List.filter keepChar y.data = y.data :=
    List.filter_eq_self.mpr (fun c hc => allowed_keep (h c hc))
  have e5 : singularize y.data = y.data := singularize_id hs
  simp only [canonicalizeName, canonList, e1, e2, e3, e4, e5]
  by_cases he : y.data.isEmpty = true
  · have hnil : y.data = [] := List.isEmpty_iff.mp he
    simp only [if_pos he]
    cases y with
    | mk d =>
      simp only at hnil
      subst hnil
      rfl
  · simp only [if_neg he]

/-- C3 counterexample: `canonicalizeName` is not idempotent; on "buses" it
yields "bus", and on "bus" it strips again to "bu". -/
theorem canonicalizeName_not_idempotent :
    canonicalizeName "buses" = "bus" ∧
      canonicalizeName (canonicalizeName "buses") = "bu" ∧
      canonicalizeName (canonicalizeName "buses") ≠ canonicalizeName "buses" := by
  refine ⟨by decide, by decide, by decide⟩

/-- C3 amended: `canonicalizeName` is idempotent on every input whose
canonical key has normal spacing (no leading, trailing or doubled space —
spacing irregularities can arise when punctuation adjacent to spaces is
stripped) and does not end in the letter s (a key ending in s is
singularized again on the second pass). -/
theorem canonicalizeName_idempotent_of_normal (x : String)
    (hw : wsNormal (canonicalizeName x).data = true)
    (hs : (canonicalizeName x).data.getLast? ≠ some 's') :
    canonicalizeName (canonicalizeName x) = canonicalizeName x := by
  refine canonicalizeName_id ?_ hw hs
  intro c hc
  exact canonList_allowed hc

/-- C3 amended, witness at "apple". -/
theorem canonicalizeName_idempotent_witness :
    wsNormal (canonicalizeName "apple").data = true ∧
      (canonicalizeName "apple").data.getLast? ≠ some 's' ∧
      canonicalizeName (canonicalizeName "apple") = canonicalizeName "apple" :=
  ⟨by decide, by decide,
    canonicalizeName_idempotent_of_normal "apple" (by decide) (by decide)⟩

/-! ## Claims C5 and C6: the recipe feasibility classifier -/

lemma filterMap_if_eq {α β : Type} (p : α → Prop) [DecidablePred p] (f : α → β) :
    ∀ l : List α,
      l.filterMap (fun a => if p a then some (f a) else none) =
        (l.filter (fun a => decide (p a))).map f := by
  intro l
  induction l with
  | nil => rfl
  | cons a l ih => by_cases hp : p a <;> simp [hp, ih]

/-- The missing-ingredient entry produced by the ingredient loop for one
sanitized ingredient, when any. -/
def missIngEntry (map : List (String × ℚ)) (ing : SanIng) : Option MissIng :=
  if lowerTrim ing.name ≠ "" ∧ hasKey map (lowerTrim ing.name) = false then
    some { name := ing.name, qtyNeeded := ing.qty }
  else none

/-- The available-ingredient entry produced by the ingredient loop for one
sanitized ingredient, when any. -/
def availIngEntry (map : List (String × ℚ)) (ing : SanIng) : Option String :=
  if lowerTrim ing.name ≠ "" ∧ hasKey map (lowerTrim ing.name) = true then
    some ing.name
  else none

lemma splitIng_foldl (map : List (String × ℚ)) :
    ∀ (l : List SanIng) (acc : List MissIng × List String),
      l.foldl (splitIngStep map) acc =
        (acc.1 ++ l.filterMap (missIngEntry map),
         acc.2 ++ l.filterMap (availIngEntry map)) := by
  intro l
  induction l with
  | nil => intro acc; simp
  | cons ing l ih =>
    intro acc
    rw [List.foldl_cons, ih]
    by_cases hn : lowerTrim ing.name = ""
    · have e1 : splitIngStep map acc ing = acc := by
        simp [splitIngStep, hn]
      have f1 : missIngEntry map ing = none := by
        simp [missIngEntry, hn]
      have f2 : availIngEntry map ing = none := by
        simp [availIngEntry, hn]
      simp [List.filterMap_cons, e1, f1, f2]
    · by_cases hk : hasKey map (lowerTrim ing.name) = true
      · have e1 : splitIngStep map acc ing = (acc.1, acc.2 ++ [ing.name]) := by
          simp [splitIngStep, hn, hk]
        have f1 : missIngEntry map ing = none := by
          simp [missIngEntry, hn, hk]
        have f2 : availIngEntry map ing = some ing.name := by
          simp [availIngEntry, hn, hk]
        simp [List.filterMap_cons, e1, f1, f2]
      · have hk' : hasKey map (lowerTrim ing.name) = false :=
          Bool.eq_false_iff.mpr hk
        have e1 : splitIngStep map acc ing =
            (acc.1 ++ [{ name := ing.name, qtyNeeded := ing.qty }], acc.2) := by
          simp [splitIngStep, hn, hk]
        have f1 : missIngEntry map ing =
            some { name := ing.name, qtyNeeded := ing.qty } := by
          simp [missIngEntry, hn, hk']
        have f2 : availIngEntry map ing = none := by
          simp [availIngEntry, hn, hk']
        simp [List.filterMap_cons, e1, f1, f2]

/-- The missing-ingredient list of a recipe payload is the filtered map of
the sanitized ingredients with a nonempty normalized name absent from the
fridge map. -/
lemma recipePayload_missing (map : List (String × ℚ)) (d : RecipeDoc) :
    (recipePayload map d).missingIngredients =
      (((sanitizeRecipe d).ingredients).filter
          (fun ing => decide (lowerTrim ing.name ≠ "" ∧
            hasKey map (lowerTrim ing.name) = false))).map
        (fun ing => { name := ing.name, qtyNeeded := ing.qty }) := by
  show (splitIngredients map (sanitizeRecipe d).ingredients).1 = _
  rw [splitIngredients, splitIng_foldl map]
  simp only [List.nil_append]
  rw [show missIngEntry map = (fun ing =>
      if lowerTrim ing.name ≠ "" ∧ hasKey map (lowerTrim ing.name) = false
      then some { name := ing.name, qtyNeeded := ing.qty } else none) from rfl]
  exact filterMap_if_eq _ _ _

lemma recipePayload_missing_len (fridgeItems : List FridgeDoc) (d : RecipeDoc) :
    (recipePayload (fridgeQtyMap fridgeItems) d).missingIngredients.length =
      codeMissingCount fridgeItems d := by
  rw [recipePayload_missing, List.length_map]
  rfl

/-- Written after the amended claim C5: a fully makeable output entry. -/
def specFullyRecipe (fridgeItems : List FridgeDoc) (d : RecipeDoc) :
    Option RecPayload :=
  if codeMissingCount fridgeItems d = 0 then
    some (recipePayload (fridgeQtyMap fridgeItems) d)
  else none

/-- Written after the amended claim C5: an almost makeable output entry. -/
def specAlmostRecipe (fridgeItems : List FridgeDoc) (d : RecipeDoc) :
    Option RecPayload :=
  if 1 ≤ codeMissingCount fridgeItems d ∧ codeMissingCount fridgeItems d ≤ 2 then
    some (recipePayload (fridgeQtyMap fridgeItems) d)
  else none

lemma recommend_foldl (fridgeItems : List FridgeDoc) :
    ∀ (rs : List RecipeDoc) (acc : List RecPayload × List RecPayload),
      rs.foldl (recommendStep (fridgeQtyMap fridgeItems)) acc =
        (acc.1 ++ rs.filterMap (specFullyRecipe fridgeItems),
         acc.2 ++ rs.filterMap (specAlmostRecipe fridgeItems)) := by
  intro rs
  induction rs with
  | nil => intro acc; simp
  | cons d rs ih =>
    intro acc
    rw [List.foldl_cons, ih]
    by_cases h0 : codeMissingCount fridgeItems d = 0
    · have e1 : recommendStep (fridgeQtyMap fridgeItems) acc d =
          (acc.1 ++ [recipePayload (fridgeQtyMap fridgeItems) d], acc.2) := by
        simp [recommendStep, recipePayload_missing_len, h0]
      have f1 : specFullyRecipe fridgeItems d =
          some (recipePayload (fridgeQtyMap fridgeItems) d) := by
        simp [specFullyRecipe, h0]
      have f2 : specAlmostRecipe fridgeItems d = none := by
        simp [specAlmostRecipe, h0]
      simp [List.filterMap_cons, e1, f1, f2]
    · by_cases h2 : codeMissingCount fridgeItems d ≤ 2
      · have e1 : recommendStep (fridgeQtyMap fridgeItems) acc d =
            (acc.1, acc.2 ++ [recipePayload (fridgeQtyMap fridgeItems) d]) := by
          simp [recommendStep, recipePayload_missing_len, h0, h2]
        have f1 : specFullyRecipe fridgeItems d = none := by
          simp [specFullyRecipe, h0]
        have f2 : specAlmostRecipe fridgeItems d =
            some (recipePayload (fridgeQtyMap fridgeItems) d) := by
          simp [specAlmostRecipe, Nat.one_le_iff_ne_zero.mpr h0, h2]
        simp [List.filterMap_cons, e1, f1, f2]
      · have e1 : recommendStep (fridgeQtyMap fridgeItems) acc d = acc := by
          simp [recommendStep, recipePayload_missing_len, h0, h2]
        have f1 : specFullyRecipe fridgeItems d = none := by
          simp [specFullyRecipe, h0]
        have f2 : specAlmostRecipe fridgeItems d = none := by
          simp [specAlmostRecipe, h2]
        simp [List.filterMap_cons, e1, f1, f2]

/-- C5 amended: the recipe feasibility classifier places each recipe with
0 missing ingredients in the fully makeable list and each recipe with 1
or 2 missing ingredients in the almost makeable list, in catalog order,
and omits every other recipe, where an ingredient counts as missing
exactly when its lowercase-trimmed name is nonempty and absent from the
set of lowercase-trimmed inventory names (presence only, independent of
quantity); ingredients whose lowercase-trimmed name is empty are skipped
entirely, counted neither missing nor available. -/
theorem recommend_classification (fridgeItems : List FridgeDoc)
    (recipes : List RecipeDoc) :
    recommendClassify fridgeItems recipes =
      (recipes.filterMap (specFullyRecipe fridgeItems),
       recipes.filterMap (specAlmostRecipe fridgeItems)) := by
  have h := recommend_foldl fridgeItems recipes ([], [])
  simpa [recommendClassify] using h

/-- A recipe document with three blank-named ingredients. -/
def blankIngRecipe : RecipeDoc :=
  { rid := Js.undef
    title := Js.str "Mystery"
    description := Js.undef
    instructions := Js.undef
    category := Js.undef
    imgUrl := Js.undef
    ingredients := Js.arr [Js.obj [("name", Js.str " ")],
      Js.obj [("name", Js.str " ")], Js.obj [("name", Js.str " ")]] }

/-- C5 counterexample: a recipe whose three ingredients all have blank
names has three missing ingredients under the claim wording (their
lowercase-trimmed names are absent from the empty inventory set), so the
claim places it in neither list; the code skips blank names, counts zero
missing, and files the recipe under fully makeable. -/
theorem recommend_blank_names_counterexample :
    claimMissingCount [] blankIngRecipe = 3 ∧
      (recommendClassify [] [blankIngRecipe]).1 =
        [recipePayload [] blankIngRecipe] ∧
      (recommendClassify [] [blankIngRecipe]).2 = [] :=
  ⟨rfl, rfl, rfl⟩

/-- A recipe document with one ingredient that has no quantity field. -/
def noQtyRecipe : RecipeDoc :=
  { rid := Js.undef
    title := Js.str "Cake"
    description := Js.undef
    instructions := Js.undef
    category := Js.undef
    imgUrl := Js.undef
    ingredients := Js.arr [Js.obj [("name", Js.str "sugar")]] }

/-- C6: a missing ingredient whose recipe does not declare a quantity is
emitted with qtyNeeded 0, not 1: `sanitizeRecipe` defaults the
unspecified quantity to 0 before the feasibility loop runs its
`Number.isFinite` test, so the loop's 1-default is unreachable. -/
theorem recommend_qtyNeeded_zero_default :
    (recipePayload (fridgeQtyMap []) noQtyRecipe).missingIngredients =
      [{ name := "sugar", qtyNeeded := 0 }] ∧ (0 : ℚ) ≠ 1 :=
  ⟨rfl, by norm_num⟩

/-! ## Claim C4: error behavior of the schema validator -/

/-- A parse stub returning a well-formed items array in which the only
item has no name. -/
def allNamelessParse : String → Option Js :=
  fun _ => some (Js.obj [("items", Js.arr [Js.obj [("qty", Js.num 2)]])])

/-- C4 counterexample: a payload with a well-formed items array in which
every item lacks a name passes the validator without error — the raw item
is returned and `normalizeItems` drops it, yielding an empty item list
instead of the escalated error the claim requires. -/
theorem gemini_no_name_check_counterexample :
    geminiExtractItems allNamelessParse "{}" =
      Except.ok [Js.obj [("qty", Js.num 2)]] ∧
      normalizeItems 0 [Js.obj [("qty", Js.num 2)]] = [] :=
  ⟨rfl, rfl⟩

/-- C4 amended: the schema validator fails exactly on structural failure
of the parse stage — no parse succeeds, or the parsed value is falsy or
lacks an array-valued `items` field. There is no check on item names:
items without a usable name are dropped locally by `normalizeItems`
(never an error), like every other field-level defect. -/
theorem gemini_error_iff_structural (parse : String → Option Js)
    (content : String) :
    ((∃ e, geminiExtractItems parse content = Except.error e) ↔
      ¬∃ v l, parse (extractJsonText content) = some v ∧ jsFalsy v = false ∧
        getField v "items" = Js.arr l) ∧
    (∀ (now : ℤ) (item : Js), rawNameOf item = "" →
      normalizeOne now item = none) := by
  constructor
  · constructor
    · rintro ⟨e, he⟩ ⟨v, l, hv, hf, hi⟩
      simp [geminiExtractItems, hv, hf, hi] at he
    · intro hne
      cases hp : parse (extractJsonText content) with
      | none => exact ⟨GemError.parseFail, by simp [geminiExtractItems, hp]⟩
      | some v =>
        by_cases hf : jsFalsy v = true
        · exact ⟨GemError.noItemsArray, by simp [geminiExtractItems, hp, hf]⟩
        · have hf' : jsFalsy v = false := Bool.eq_false_iff.mpr hf
          cases hi : getField v "items" with
          | arr l => exact absurd ⟨v, l, hp, hf', hi⟩ hne
          | undef =>
            exact ⟨GemError.noItemsArray, by simp [geminiExtractItems, hp, hf', hi]⟩
          | null =>
            exact ⟨GemError.noItemsArray, by simp [geminiExtractItems, hp, hf', hi]⟩
          | bool b =>
            exact ⟨GemError.noItemsArray, by simp [geminiExtractItems, hp, hf', hi]⟩
          | num q =>
            exact ⟨GemError.noItemsArray, by simp [geminiExtractItems, hp, hf', hi]⟩
          | str s =>
            exact ⟨GemError.noItemsArray, by simp [geminiExtractItems, hp, hf', hi]⟩
          | obj fields =>
            exact ⟨GemError.noItemsArray, by simp [geminiExtractItems, hp, hf', hi]⟩
  · intro now item h
    simp [normalizeOne, h]

/-! ## Claim C9: invariants of the items emitted by `normalizeItems` -/

lemma safeInteger_nat (v : Js) : ∃ n : ℕ, safeInteger v = (n : ℚ) := by
  cases hv : jsToNum v with
  | none => exact ⟨0, by simp [safeInteger, hv]⟩
  | some q =>
    by_cases hneg : jsRound q < 0
    · exact ⟨0, by simp [safeInteger, hv, intMax0, hneg]⟩
    · refine ⟨(jsRound q).toNat, ?_⟩
      simp only [safeInteger, hv, intMax0, if_neg hneg]
      exact_mod_cast (Int.toNat_of_nonneg (not_lt.mp hneg)).symm

/-- The bbox invariant of the claim: absent, or four values whose numeric
coercions put the corner in the unit square with positive width and
height not exceeding 1. -/
def bboxInvariant : Option (Js × Js × Js × Js) → Prop
  | none => True
  | some (x, y, w, h) =>
    jsGeNum x 0 = true ∧ jsLeNum x 1 = true ∧ jsGeNum y 0 = true ∧
      jsLeNum y 1 = true ∧ jsGtNum w 0 = true ∧ jsLeNum w 1 = true ∧
      jsGtNum h 0 = true ∧ jsLeNum h 1 = true

lemma checkBbox_invariant (v : Js) : bboxInvariant (checkBbox v) := by
  unfold checkBbox
  split
  · rename_i x y w h
    split_ifs with hcond
    · simp only [Bool.and_eq_true] at hcond
      exact ⟨hcond.1.1.1.1.1.1.1, hcond.1.1.1.1.1.1.2, hcond.1.1.1.1.1.2,
        hcond.1.1.1.1.2, hcond.1.1.1.2, hcond.1.1.2, hcond.1.2, hcond.2⟩
    · trivial
  · trivial

lemma dropWhile_head_not_ws :
    ∀ (l : List Char) (c : Char), (l.dropWhile isWS).head? = some c →
      isWS c = false := by
  intro l
  induction l with
  | nil => intro c hc; cases hc
  | cons a l ih =>
    intro c hc
    by_cases ha : isWS a = true
    · rw [List.dropWhile_cons, if_pos ha] at hc
      exact ih c hc
    · rw [List.dropWhile_cons, if_neg ha] at hc
      have : a = c := by simpa using hc
      subst this
      exact Bool.eq_false_iff.mpr ha

lemma trimWS_head_not_ws {cs : List Char} {c : Char}
    (h : (trimWS cs).head? = some c) : isWS c = false := by
  have hX : (trimWS cs).head? =
      ((cs.dropWhile isWS).reverse.dropWhile isWS).getLast? := by
    unfold trimWS
    rw [List.head?_reverse]
  rw [hX] at h
  rcases List.dropWhile_suffix (l := (cs.dropWhile isWS).reverse) isWS with ⟨t, ht⟩
  have hXne : (cs.dropWhile isWS).reverse.dropWhile isWS ≠ [] := by
    intro hnil
    rw [hnil] at h
    cases h
  have hlast : ((cs.dropWhile isWS).reverse).getLast? = some c := by
    rw [← ht, List.getLast?_append_of_ne_nil _ hXne]
    exact h
  rw [List.getLast?_reverse] at hlast
  exact dropWhile_head_not_ws cs c hlast

lemma splitSp_ne_nil : ∀ cs : List Char, splitSp cs ≠ [] := by
  intro cs
  induction cs with
  | nil => simp [splitSp]
  | cons c rest ih =>
    show List.foldr _ [[]] (c :: rest) ≠ []
    rw [List.foldr_cons]
    by_cases hc : c == ' '
    · simp only [hc, if_true]
      simp
    · simp only [hc, Bool.false_eq_true, if_false]
      rcases hs : List.foldr _ [[]] rest with _ | ⟨w, ws⟩
      · exact absurd hs ih
      · simp

lemma char_toNat_ofNat {n : ℕ} (h : n < 55296) : (Char.ofNat n).toNat = n := by
  unfold Char.ofNat
  rw [dif_pos (Or.inl h)]
  rfl

lemma capWordsList_ne_nil {cs : List Char} {c : Char}
    (hhead : cs.head? = some c) (hc : c ≠ ' ') : capWordsList cs ≠ [] := by
  rcases cs with _ | ⟨a, rest⟩
  · cases hhead
  · have hac : a = c := by simpa using hhead
    subst hac
    have hlow : jsToLower a ≠ ' ' := by
      intro he
      unfold jsToLower at he
      split_ifs at he with hu
      · simp only [isUpperAZ, Bool.and_eq_true, decide_eq_true_eq] at hu
        have h32 : (Char.ofNat (a.toNat + 32)).toNat = ' '.toNat := by rw [he]
        rw [char_toNat_ofNat (by omega)] at h32
        have : ' '.toNat = 32 := by decide
        omega
      · exact hc he
    unfold capWordsList
    rw [List.map_cons]
    have hsplit :
        ∃ w ws, splitSp (jsToLower a :: rest.map jsToLower) =
          (jsToLower a :: w) :: ws := by
      show ∃ w ws,
        List.foldr _ [[]] (jsToLower a :: rest.map jsToLower) = (jsToLower a :: w) :: ws
      rw [List.foldr_cons]
      have hne : (jsToLower a == ' ') = false := by
        simp [hlow]
      rcases hs : List.foldr _ [[]] (rest.map jsToLower) with _ | ⟨w, ws⟩
      · exact absurd hs (splitSp_ne_nil (rest.map jsToLower))
      · exact ⟨w, ws, by simp [hne]⟩
    rcases hsplit with ⟨w, ws, hs⟩
    rw [hs]
    have hkeep : ((jsToLower a :: w) :: ws).filter (fun x => !x.isEmpty) =
        (jsToLower a :: w) :: ws.filter (fun x => !x.isEmpty) := by
      simp [List.filter_cons]
    rw [hkeep, List.map_cons]
    show joinSp (capWord (jsToLower a :: w) :: _) ≠ []
    unfold capWord
    rcases hrest : ws.filter (fun x => !x.isEmpty) with _ | ⟨w2, ws2⟩
    · rw [hrest]
      simp [joinSp]
    · rw [hrest]
      simp [joinSp]

lemma capitalizeWords_trim_ne_empty {s : String} (h : jsTrim s ≠ "") :
    capitalizeWords (jsTrim s) ≠ "" := by
  have hdata : (jsTrim s).data = trimWS s.data := rfl
  rcases hh : (jsTrim s).data.head? with _ | c
  · exfalso
    apply h
    rcases he : (jsTrim s).data with _ | ⟨a, rest⟩
    · cases s with
      | mk d =>
        have : trimWS d = [] := by rw [← hdata, he]
        show String.mk (trimWS d) = ""
        rw [this]
    · rw [he] at hh
      cases hh
  · have hcws : isWS c = false := by
      rw [hdata] at hh
      exact trimWS_head_not_ws hh
    have hcsp : c ≠ ' ' := by
      intro he
      rw [he] at hcws
      exact absurd hcws (by decide)
    have := capWordsList_ne_nil hh hcsp
    intro he
    apply this
    have : (capitalizeWords (jsTrim s)).data = capWordsList (jsTrim s).data := rfl
    rw [he] at this
    exact this.symm

/-- C9: every item emitted by `normalizeItems` has a nonempty display name
and canonical name, nonnegative integer quantity and expiry, a category
from the supported set (with unrecognized or non-string raw categories
mapped to "snacks"), and a bounding box that is absent or a four-value box
inside the unit square with positive width and height. -/
theorem normalizeItems_invariants (now : ℤ) (items : List Js)
    (it : NormalizedItem) (hmem : it ∈ normalizeItems now items) :
    ∃ item ∈ items, normalizeOne now item = some it ∧
      it.name ≠ "" ∧ it.canonicalName ≠ "" ∧
      (∃ n : ℕ, it.qty = (n : ℚ)) ∧ (∃ n : ℕ, it.expiresInDays = (n : ℚ)) ∧
      SUPPORTED_CATEGORIES.contains it.category = true ∧
      (SUPPORTED_CATEGORIES.contains (rawCategoryOf item) = false →
        it.category = "snacks") ∧
      bboxInvariant it.bbox := by
  rcases List.mem_filterMap.mp hmem with ⟨item, hitem, hsome⟩
  refine ⟨item, hitem, hsome, ?_⟩
  unfold normalizeOne at hsome
  by_cases hguard : rawNameOf item = "" ∨ canonicalizeName (rawNameOf item) = ""
  · rw [if_pos hguard] at hsome
    cases hsome
  · rw [if_neg hguard] at hsome
    push_neg at hguard
    have hfields := Option.some.inj hsome
    subst hfields
    refine ⟨?_, ?_, ?_, ?_, ?_, ?_, ?_⟩
    · show capitalizeWords (rawNameOf item) ≠ ""
      have hstr : ∃ s, getField item "name" = Js.str s ∧ jsTrim s ≠ "" := by
        rcases hname : getField item "name" with _ | _ | b | q | s | l | f <;>
          simp only [rawNameOf, hname] at hguard
        · exact absurd rfl hguard.1
        · exact absurd rfl hguard.1
        · exact absurd rfl hguard.1
        · exact absurd rfl hguard.1
        · exact ⟨s, rfl, hguard.1⟩
        · exact absurd rfl hguard.1
        · exact absurd rfl hguard.1
      rcases hstr with ⟨s, hs, hne⟩
      simp only [rawNameOf, hs]
      exact capitalizeWords_trim_ne_empty hne
    · exact hguard.2
    · exact safeInteger_nat _
    · exact safeInteger_nat _
    · show SUPPORTED_CATEGORIES.contains
        (if SUPPORTED_CATEGORIES.contains (rawCategoryOf item) then
          rawCategoryOf item else "snacks") = true
      by_cases hcat : SUPPORTED_CATEGORIES.contains (rawCategoryOf item) = true
      · rw [if_pos hcat]
        exact hcat
      · rw [if_neg hcat]
        decide
    · intro hcat
      show (if SUPPORTED_CATEGORIES.contains (rawCategoryOf item) then
          rawCategoryOf item else "snacks") = "snacks"
      rw [hcat]
      rfl
    · exact checkBbox_invariant _

/-- The concrete raw item used by the C9 witness. -/
def witnessRawItem : Js :=
  Js.obj [("name", Js.str " apples "), ("qty", Js.num 2),
    ("category", Js.str "Candy"),
    ("bbox", Js.arr [Js.num 0, Js.num 0, Js.num 1, Js.num 1])]

/-- The normalized item that `normalizeItems` emits for `witnessRawItem`. -/
def witnessNormItem : NormalizedItem :=
  { name := "Apples", canonicalName := "appl", qty := 2,
    expiresInDays := 0, category := "snacks",
    bbox := some (Js.num 0, Js.num 0, Js.num 1, Js.num 1),
    detectedAt := 0 }

/-- C9 witness: a concrete raw item with a name, quantity, unknown
category and unit bounding box. -/
theorem normalizeItems_invariants_witness :
    ∃ item ∈ [witnessRawItem],
      normalizeOne 0 item = some witnessNormItem ∧
      witnessNormItem.name ≠ "" ∧ witnessNormItem.canonicalName ≠ "" ∧
      (∃ n : ℕ, witnessNormItem.qty = (n : ℚ)) ∧
      (∃ n : ℕ, witnessNormItem.expiresInDays = (n : ℚ)) ∧
      SUPPORTED_CATEGORIES.contains witnessNormItem.category = true ∧
      (SUPPORTED_CATEGORIES.contains (rawCategoryOf item) = false →
        witnessNormItem.category = "snacks") ∧
      bboxInvariant witnessNormItem.bbox := by
  refine normalizeItems_invariants 0 [witnessRawItem] witnessNormItem ?_
  rw [show normalizeItems 0 [witnessRawItem] = [witnessNormItem] from rfl]
  exact List.mem_singleton_self _

/-! ## Claim C10: character classes of name variants and the match filter -/

lemma canonicalizeName_chars {x : String} {c : Char}
    (h : c ∈ (canonicalizeName x).data) : allowedChar c = true :=
  canonList_allowed h

lemma variants_chars_allowed {key : String}
    (hkey : ∀ c ∈ key.data, allowedChar c = true) :
    ∀ v ∈ generateNameVariants key, ∀ c ∈ v.data, allowedChar c = true := by
  intro v hv c hc
  unfold generateNameVariants at hv
  by_cases hk : key = ""
  · rw [if_pos hk] at hv
    cases hv
  · rw [if_neg hk] at hv
    rcases List.mem_append.mp hv with h1 | h1
    · by_cases hy : key.data.getLast? = some 'y'
      · rw [if_pos hy] at h1
        rcases List.mem_cons.mp h1 with h2 | h2
        · subst h2
          exact hkey c hc
        · have h3 : v = String.mk (key.data.dropLast ++ ['i', 'e', 's']) :=
            List.mem_singleton.mp h2
          subst h3
          rcases List.mem_append.mp hc with h4 | h4
          · exact hkey c (List.dropLast_subset _ h4)
          · exact (by decide :
              ∀ d ∈ (['i', 'e', 's'] : List Char), allowedChar d = true) c h4
      · rw [if_neg hy] at h1
        have h2 : v = key := List.mem_singleton.mp h1
        subst h2
        exact hkey c hc
    · rcases List.mem_cons.mp h1 with h2 | h2
      · subst h2
        rw [String.data_append] at hc
        rcases List.mem_append.mp hc with h4 | h4
        · exact hkey c h4
        · exact (by decide : ∀ d ∈ "s".data, allowedChar d = true) c h4
      · have h3 : v = key ++ "es" := List.mem_singleton.mp h2
        subst h3
        rw [String.data_append] at hc
        rcases List.mem_append.mp hc with h4 | h4
        · exact hkey c h4
        · exact (by decide : ∀ d ∈ "es".data, allowedChar d = true) c h4

/-- C10: every variant generated for a canonical key consists only of
lowercase letters, digits and spaces; consequently a stored record whose
name contains an uppercase character can match the analyze filter only
through canonical-name equality, never through the name-in-variants
clause. -/
theorem variants_lowercase_match (x : String) :
    (∀ v ∈ generateNameVariants (canonicalizeName x), ∀ c ∈ v.data,
      allowedChar c = true) ∧
    (∀ r : StoredItem, (∃ c ∈ r.name.data, isUpperAZ c = true) →
      (matchesQuery (canonicalizeName x) r = true ↔
        r.canonicalName = canonicalizeName x)) := by
  have hvars := @variants_chars_allowed (canonicalizeName x)
    (fun c hc => canonicalizeName_chars hc)
  refine ⟨hvars, ?_⟩
  rintro r ⟨c, hc, hup⟩
  have hnotin : (generateNameVariants (canonicalizeName x)).contains r.name = false := by
    rw [Bool.eq_false_iff]
    intro hcontains
    have hmem : r.name ∈ generateNameVariants (canonicalizeName x) :=
      List.mem_of_elem_eq_true hcontains
    have := allowed_not_upper (hvars r.name hmem c hc)
    rw [hup] at this
    cases this
  constructor
  · intro hm
    unfold matchesQuery at hm
    rw [hnotin, Bool.or_false] at hm
    exact eq_of_beq hm
  · intro heq
    unfold matchesQuery
    rw [heq]
    simp

/-- The stored inventory record used by the C7 and C10 witnesses. -/
def witnessStoredApple : StoredItem :=
  { name := "Apple", canonicalName := "apple", qty := 3, expiresInDays := 0,
    category := "produce", bbox := none, detectedAt := 0, imageData := "",
    imageMimeType := "", fullImageData := "" }

/-- C10 witness: the record named "Apple" (with its uppercase initial)
matches the filter for key "apple" exactly through canonical-name
equality. -/
theorem variants_lowercase_match_witness :
    matchesQuery (canonicalizeName "apple") witnessStoredApple = true ↔
      witnessStoredApple.canonicalName = canonicalizeName "apple" :=
  (variants_lowercase_match "apple").2 witnessStoredApple
    ⟨'A', by decide, by decide⟩

/-! ## Claims C7 and C1: the merge policy of the identity resolver -/

lemma find?_append_none {α : Type} {p : α → Bool} :
    ∀ {l : List α}, (∀ r ∈ l, p r = false) → ∀ l2 : List α,
      (l ++ l2).find? p = l2.find? p := by
  intro l
  induction l with
  | nil => intro _ l2; rfl
  | cons a l ih =>
    intro h l2
    have ha : p a = false := h a (List.mem_cons_self a l)
    rw [List.cons_append, List.find?_cons_of_neg _ (by simp [ha])]
    exact ih (fun r hr => h r (List.mem_cons_of_mem a hr)) l2

lemma replaceFirst_cons (p : StoredItem → Bool) (x r : StoredItem)
    (rest : List StoredItem) :
    replaceFirst p x (r :: rest) =
      if p r then x :: rest else r :: replaceFirst p x rest := rfl

lemma replaceFirst_append_none {p : StoredItem → Bool} {x : StoredItem} :
    ∀ {l : List StoredItem}, (∀ r ∈ l, p r = false) → ∀ l2 : List StoredItem,
      replaceFirst p x (l ++ l2) = l ++ replaceFirst p x l2 := by
  intro l
  induction l with
  | nil => intro _ l2; rfl
  | cons a l ih =>
    intro h l2
    have ha : p a = false := h a (List.mem_cons_self a l)
    show replaceFirst p x (a :: (l ++ l2)) = a :: (l ++ replaceFirst p x l2)
    rw [replaceFirst_cons, if_neg (by simp [ha])]
    rw [ih (fun r hr => h r (List.mem_cons_of_mem a hr)) l2]

lemma ratMax0_of_nonneg {q : ℚ} (h : 0 ≤ q) : ratMax0 q = q :=
  if_neg (not_lt.mpr h)

lemma ratMax0_nonneg (q : ℚ) : 0 ≤ ratMax0 q := by
  unfold ratMax0
  split_ifs with h
  · exact le_refl 0
  · exact not_lt.mp h

/-- C7 amended: when the resolver finds an existing record (first match of
the disjunctive filter), the store is updated in place at that record; the
merged record accumulates the quantity as max(0, existing + observed) and
takes every other field from the new observation. The spec example merges
a new observation of "apple" (not "apples", whose canonical key is "appl"
and does not resolve to the stored record) into the stored "Apple": see
the witness. -/
theorem merge_overwrites (pre post : List StoredItem) (r : StoredItem)
    (o : ObsItem)
    (hpre : ∀ s ∈ pre, matchesQuery (obsKey o) s = false)
    (hr : matchesQuery (obsKey o) r = true) :
    processObservation (pre ++ r :: post) o =
      pre ++ mergedPayload (obsKey o) r.qty o :: post ∧
    (mergedPayload (obsKey o) r.qty o).qty = ratMax0 (r.qty + o.qty) ∧
    (mergedPayload (obsKey o) r.qty o).name = o.name ∧
    (mergedPayload (obsKey o) r.qty o).canonicalName = obsKey o ∧
    (mergedPayload (obsKey o) r.qty o).expiresInDays = o.expiresInDays ∧
    (mergedPayload (obsKey o) r.qty o).category = o.category ∧
    (mergedPayload (obsKey o) r.qty o).bbox = o.bbox ∧
    (mergedPayload (obsKey o) r.qty o).detectedAt = o.detectedAt ∧
    (mergedPayload (obsKey o) r.qty o).imageData = o.imageData ∧
    (mergedPayload (obsKey o) r.qty o).imageMimeType = o.imageMimeType ∧
    (mergedPayload (obsKey o) r.qty o).fullImageData = o.fullImageData := by
  refine ⟨?_, rfl, rfl, rfl, rfl, rfl, rfl, rfl, rfl, rfl, rfl⟩
  have hfind : (pre ++ r :: post).find? (matchesQuery (obsKey o)) = some r := by
    rw [find?_append_none hpre]
    exact List.find?_cons_of_pos _ hr
  show processObservation (pre ++ r :: post) o = _
  simp only [processObservation]
  rw [hfind]
  show replaceFirst (matchesQuery (obsKey o)) (mergedPayload (obsKey o) r.qty o)
    (pre ++ r :: post) = pre ++ mergedPayload (obsKey o) r.qty o :: post
  rw [replaceFirst_append_none hpre]
  rw [replaceFirst_cons, if_pos hr]

/-- The observation of "apple" (quantity 2) used by the C7 witness. -/
def appleObs : ObsItem :=
  { name := "Apple", canonicalName := "apple", qty := 2, expiresInDays := 0,
    category := "produce", bbox := none, detectedAt := 0, imageData := "",
    imageMimeType := "", fullImageData := "" }

/-- C7 amended, witness: merging an observation of "apple" (quantity 2)
into a store holding "Apple" (quantity 3) yields one record of quantity 5
whose display name and canonical key come from the observation. -/
theorem merge_overwrites_witness :
    processObservation [witnessStoredApple] appleObs =
      [mergedPayload (obsKey appleObs) witnessStoredApple.qty appleObs] ∧
    (mergedPayload (obsKey appleObs) witnessStoredApple.qty appleObs).qty = 5 ∧
    (mergedPayload (obsKey appleObs) witnessStoredApple.qty appleObs).name =
      "Apple" ∧
    (mergedPayload (obsKey appleObs) witnessStoredApple.qty appleObs).canonicalName =
      "apple" := by
  obtain ⟨h1, h2, -⟩ := merge_overwrites [] [] witnessStoredApple appleObs
    (fun s hs => absurd hs (List.not_mem_nil s)) (by decide)
  refine ⟨h1, ?_, rfl, rfl⟩
  rw [h2]
  show ratMax0 ((3 : ℚ) + 2) = 5
  norm_num [ratMax0]

/-- The observation of "apples" (quantity 2) used by the C7
counterexample. -/
def applesObs : ObsItem :=
  { name := "Apples", canonicalName := "appl", qty := 2, expiresInDays := 0,
    category := "produce", bbox := none, detectedAt := 0, imageData := "",
    imageMimeType := "", fullImageData := "" }

/-- C7 counterexample: the claim example is wrong on the code. The
canonical key of "apples" is "appl", not "apple" (the es-rule strips
before the s-rule), the observation does not resolve to the stored
{name "Apple", canonicalKey "apple", qty 3} record, and processing it
leaves that record untouched and inserts a second record of quantity 2 —
not one merged record of quantity 5. -/
theorem merge_apples_counterexample :
    canonicalizeName "apples" = "appl" ∧
    canonicalizeName "apples" ≠ "apple" ∧
    matchesQuery (obsKey applesObs) witnessStoredApple = false ∧
    processObservation [witnessStoredApple] applesObs =
      [witnessStoredApple, mergedPayload (obsKey applesObs) 0 applesObs] ∧
    (mergedPayload (obsKey applesObs) 0 applesObs).qty = 2 := by
  refine ⟨by decide, by decide, by decide, rfl, ?_⟩
  show ratMax0 ((0 : ℚ) + 2) = 2
  norm_num [ratMax0]

lemma canonBeq_false_of_not_match {k : String} {r : StoredItem}
    (h : matchesQuery k r = false) : (r.canonicalName == k) = false := by
  unfold matchesQuery at h
  exact (Bool.or_eq_false_iff.mp h).1

lemma analyzeBatch_acc (k : String) (hk : k ≠ "") :
    ∀ (obsL : List ObsItem) (store : List StoredItem) (cur : StoredItem),
      (∀ r ∈ store, matchesQuery k r = false) →
      cur.canonicalName = k → 0 ≤ cur.qty →
      (∀ o ∈ obsL, o.canonicalName = k ∧ 0 ≤ o.qty) →
      ∃ fin : StoredItem,
        analyzeBatch (store ++ [cur]) obsL = store ++ [fin] ∧
        fin.canonicalName = k ∧
        fin.qty = cur.qty + (obsL.map (fun o => o.qty)).sum := by
  intro obsL
  induction obsL with
  | nil =>
    intro store cur h1 h2 h3 h4
    exact ⟨cur, by simp [analyzeBatch], h2, by simp⟩
  | cons o rest ih =>
    intro store cur h1 h2 h3 h4
    have hko : o.canonicalName = k := (h4 o (List.mem_cons_self o rest)).1
    have hqo : 0 ≤ o.qty := (h4 o (List.mem_cons_self o rest)).2
    have hkey : obsKey o = k := by
      unfold obsKey
      rw [hko, if_neg hk]
    have hmatch : matchesQuery k cur = true := by
      unfold matchesQuery
      rw [h2]
      simp
    have hfind : (store ++ [cur]).find? (matchesQuery k) = some cur := by
      rw [find?_append_none h1]
      exact List.find?_cons_of_pos _ hmatch
    have hstep : processObservation (store ++ [cur]) o =
        store ++ [mergedPayload k cur.qty o] := by
      simp only [processObservation]
      rw [hkey, hfind]
      show replaceFirst (matchesQuery k) (mergedPayload k cur.qty o)
        (store ++ [cur]) = store ++ [mergedPayload k cur.qty o]
      rw [replaceFirst_append_none h1]
      rw [replaceFirst_cons, if_pos hmatch]
    have hqsum : (mergedPayload k cur.qty o).qty = cur.qty + o.qty := by
      show ratMax0 (cur.qty + o.qty) = cur.qty + o.qty
      exact ratMax0_of_nonneg (add_nonneg h3 hqo)
    obtain ⟨fin, hf1, hf2, hf3⟩ := ih store (mergedPayload k cur.qty o) h1 rfl
      (by rw [hqsum]; exact add_nonneg h3 hqo)
      (fun o2 ho2 => h4 o2 (List.mem_cons_of_mem o ho2))
    refine ⟨fin, ?_, hf2, ?_⟩
    · show List.foldl processObservation (store ++ [cur]) (o :: rest) = _
      rw [List.foldl_cons, hstep]
      exact hf1
    · rw [hf3, hqsum, List.map_cons, List.sum_cons]
      ring

/-- C1: starting from an inventory with no record matching a canonical
key, processing any nonempty batch of observations of that key one at a
time leaves a single record for the key whose stored quantity is the sum
of all observed quantities, and any reordering of the batch produces the
same final quantity. -/
theorem analyze_merge_commutative_sum (store : List StoredItem) (k : String)
    (l l2 : List ObsItem) (hk : k ≠ "")
    (hstore : ∀ r ∈ store, matchesQuery k r = false)
    (hobs : ∀ o ∈ l, o.canonicalName = k ∧ 0 ≤ o.qty)
    (hne : l ≠ []) (hperm : l.Perm l2) :
    qtyForKey (analyzeBatch store l) k =
      some ((l.map (fun o => o.qty)).sum) ∧
    qtyForKey (analyzeBatch store l2) k =
      some ((l.map (fun o => o.qty)).sum) := by
  have main : ∀ l3 : List ObsItem,
      (∀ o ∈ l3, o.canonicalName = k ∧ 0 ≤ o.qty) → l3 ≠ [] →
      qtyForKey (analyzeBatch store l3) k =
        some ((l3.map (fun o => o.qty)).sum) := by
    intro l3 hobs3 hne3
    cases l3 with
    | nil => exact absurd rfl hne3
    | cons o rest =>
      have hko : o.canonicalName = k := (hobs3 o (List.mem_cons_self o rest)).1
      have hqo : 0 ≤ o.qty := (hobs3 o (List.mem_cons_self o rest)).2
      have hkey : obsKey o = k := by
        unfold obsKey
        rw [hko, if_neg hk]
      have hfind : store.find? (matchesQuery k) = none :=
        List.find?_eq_none.mpr
          (fun x hx => by rw [hstore x hx]; exact Bool.false_ne_true)
      have hstep : processObservation store o =
          store ++ [mergedPayload k 0 o] := by
        simp only [processObservation]
        rw [hkey, hfind]
      have hq0 : (mergedPayload k 0 o).qty = o.qty := by
        show ratMax0 (0 + o.qty) = o.qty
        rw [zero_add]
        exact ratMax0_of_nonneg hqo
      obtain ⟨fin, hf1, hf2, hf3⟩ := analyzeBatch_acc k hk rest store
        (mergedPayload k 0 o) hstore rfl (by rw [hq0]; exact hqo)
        (fun o2 ho2 => hobs3 o2 (List.mem_cons_of_mem o ho2))
      have hbatch : analyzeBatch store (o :: rest) = store ++ [fin] := by
        show List.foldl processObservation store (o :: rest) = _
        rw [List.foldl_cons, hstep]
        exact hf1
      rw [hbatch]
      unfold qtyForKey
      rw [find?_append_none
        (fun r hr => canonBeq_false_of_not_match (hstore r hr))]
      rw [List.find?_cons_of_pos _ (by simp [hf2])]
      show some fin.qty = some ((List.map (fun o => o.qty) (o :: rest)).sum)
      rw [hf3, hq0, List.map_cons, List.sum_cons]
  refine ⟨main l hobs hne, ?_⟩
  have hobs2 : ∀ o ∈ l2, o.canonicalName = k ∧ 0 ≤ o.qty :=
    fun o ho => hobs o (hperm.mem_iff.mpr ho)
  have hne2 : l2 ≠ [] := by
    intro hnil
    subst hnil
    exact hne hperm.eq_nil
  rw [main l2 hobs2 hne2]
  rw [(hperm.map (fun o => o.qty)).sum_eq]

/-- The two observations of key "apple" used by the C1 witness. -/
def obsAppleTwo : ObsItem :=
  { name := "Apple", canonicalName := "apple", qty := 2, expiresInDays := 0,
    category := "produce", bbox := none, detectedAt := 0, imageData := "",
    imageMimeType := "", fullImageData := "" }

/-- The second observation of key "apple" used by the C1 witness. -/
def obsAppleThree : ObsItem :=
  { name := "Apples", canonicalName := "apple", qty := 3, expiresInDays := 0,
    category := "produce", bbox := none, detectedAt := 1, imageData := "",
    imageMimeType := "", fullImageData := "" }

/-- C1 witness: two observations of key "apple" (quantities 2 and 3)
processed in either order against an empty store leave the stored
quantity 2 + 3. -/
theorem analyze_merge_commutative_sum_witness :
    qtyForKey (analyzeBatch [] [obsAppleTwo, obsAppleThree]) "apple" =
      some (([obsAppleTwo, obsAppleThree].map (fun o => o.qty)).sum) ∧
    qtyForKey (analyzeBatch [] [obsAppleThree, obsAppleTwo]) "apple" =
      some (([obsAppleTwo, obsAppleThree].map (fun o => o.qty)).sum) :=
  analyze_merge_commutative_sum [] "apple" [obsAppleTwo, obsAppleThree]
    [obsAppleThree, obsAppleTwo] (by decide)
    (fun r hr => absurd hr (List.not_mem_nil r))
    (by
      intro o ho
      rcases List.mem_cons.mp ho with h | h
      · subst h
        exact ⟨rfl, by decide⟩
      · rcases List.mem_cons.mp h with h2 | h2
        · subst h2
          exact ⟨rfl, by decide⟩
        · cases h2)
    (by simp)
    (List.Perm.swap obsAppleThree obsAppleTwo [])

/-! ## Claim C8: fenced wrapping does not change the extracted items

The brace span from the first opening brace to the last closing brace is
unchanged by adding or removing brace-free prefixes and suffixes, which is
all that fence wrapping and fence stripping do. -/

/-- A character list containing no braces. -/
def braceFree (l : List Char) : Prop := ∀ c ∈ l, c ≠ '{' ∧ c ≠ '}'

lemma dropWhile_append_all {p : Char → Bool} {l1 : List Char}
    (h : ∀ c ∈ l1, p c = true) (l2 : List Char) :
    (l1 ++ l2).dropWhile p = l2.dropWhile p := by
  induction l1 with
  | nil => rfl
  | cons a l1 ih =>
    rw [List.cons_append, List.dropWhile_cons,
      if_pos (h a (List.mem_cons_self a l1))]
    exact ih (fun c hc => h c (List.mem_cons_of_mem a hc))

lemma dropWhile_append_of_ne_nil {p : Char → Bool} :
    ∀ {l1 : List Char}, l1.dropWhile p ≠ [] → ∀ l2 : List Char,
      (l1 ++ l2).dropWhile p = l1.dropWhile p ++ l2 := by
  intro l1
  induction l1 with
  | nil => intro h _; exact absurd rfl h
  | cons a l1 ih =>
    intro h l2
    by_cases ha : p a = true
    · rw [List.dropWhile_cons, if_pos ha] at h
      rw [List.cons_append, List.dropWhile_cons, if_pos ha,
        List.dropWhile_cons, if_pos ha]
      exact ih h l2
    · rw [List.cons_append, List.dropWhile_cons, if_neg ha,
        List.dropWhile_cons, if_neg ha, List.cons_append]

lemma braceFree_not_lcurly {l : List Char} (h : braceFree l) :
    ∀ c ∈ l, (c != '{') = true :=
  fun c hc => bne_iff_ne.mpr (h c hc).1

lemma braceFree_not_rcurly {l : List Char} (h : braceFree l) :
    ∀ c ∈ l, (c != '}') = true :=
  fun c hc => bne_iff_ne.mpr (h c hc).2

lemma braceSlice_append_left {pre cs : List Char} (h : braceFree pre) :
    braceSlice (pre ++ cs) = braceSlice cs := by
  simp only [braceSlice]
  rw [dropWhile_append_all (braceFree_not_lcurly h) cs]

lemma braceSlice_append_right {cs suf : List Char} (h : braceFree suf) :
    braceSlice (cs ++ suf) = braceSlice cs := by
  simp only [braceSlice]
  by_cases hd : (cs.dropWhile (fun c => c != '{')).isEmpty = true
  · have hnil : cs.dropWhile (fun c => c != '{') = [] := List.isEmpty_iff.mp hd
    have hall : ∀ c ∈ cs, (c != '{') = true := List.dropWhile_eq_nil_iff.mp hnil
    rw [dropWhile_append_all hall suf,
      List.dropWhile_eq_nil_iff.mpr (braceFree_not_lcurly h)]
    rw [hnil]
  · have hne : cs.dropWhile (fun c => c != '{') ≠ [] :=
      fun hnil => hd (List.isEmpty_iff.mpr hnil)
    rw [dropWhile_append_of_ne_nil hne suf]
    have hne2 : ((cs.dropWhile (fun c => c != '{')) ++ suf).isEmpty = false := by
      rcases he : cs.dropWhile (fun c => c != '{') with _ | ⟨a, d⟩
      · exact absurd he hne
      · rfl
    rw [if_neg (by rw [hne2]; exact Bool.false_ne_true), if_neg hd]
    rw [List.reverse_append,
      dropWhile_append_all (fun c hc =>
        braceFree_not_rcurly h c (List.mem_reverse.mp hc)) _]

lemma ws_braceFree {l : List Char} (h : ∀ c ∈ l, isWS c = true) :
    braceFree l := by
  intro c hc
  constructor <;> intro he <;> rw [he] at hc <;>
    exact absurd (h _ hc) (by decide)

lemma braceSlice_trimWS (cs : List Char) :
    braceSlice (trimWS cs) = braceSlice cs := by
  have h1 : cs = cs.takeWhile isWS ++ cs.dropWhile isWS :=
    (List.takeWhile_append_dropWhile isWS cs).symm
  have h2 : braceSlice cs = braceSlice (cs.dropWhile isWS) := by
    conv_lhs => rw [h1]
    exact braceSlice_append_left
      (ws_braceFree (fun c hc => List.mem_takeWhile_imp hc))
  set d := cs.dropWhile isWS with hd
  have h3 : d.reverse = d.reverse.takeWhile isWS ++ d.reverse.dropWhile isWS :=
    (List.takeWhile_append_dropWhile isWS d.reverse).symm
  have h4 : d = trimWS cs ++ (d.reverse.takeWhile isWS).reverse := by
    conv_lhs => rw [← List.reverse_reverse d, h3]
    rw [List.reverse_append]
    rfl
  rw [h2]
  conv_rhs => rw [h4]
  exact (braceSlice_append_right
    (ws_braceFree (fun c hc =>
      List.mem_takeWhile_imp (List.mem_reverse.mp hc)))).symm

lemma braceFree_nil : braceFree [] :=
  fun c hc => absurd hc (List.not_mem_nil c)

lemma braceFree_cons {a : Char} {l : List Char} (ha : a ≠ '\x7b' ∧ a ≠ '\x7d')
    (hl : braceFree l) : braceFree (a :: l) := by
  intro c hc
  rcases List.mem_cons.mp hc with h | h
  · subst h
    exact ha
  · exact hl c h

lemma stripLeadFence_decomp (cs : List Char) :
    ∃ pre, cs = pre ++ stripLeadFence cs ∧ braceFree pre := by
  unfold stripLeadFence
  by_cases hp : ['`', '`', '`'].isPrefixOf cs
  · rw [if_pos hp]
    obtain ⟨rest, hrest⟩ : ∃ rest, cs = '`' :: '`' :: '`' :: rest := by
      rcases List.isPrefixOf_iff_prefix.mp hp with ⟨t, ht⟩
      exact ⟨t, ht.symm⟩
    have hdrop : cs.drop 3 = rest := by rw [hrest]; rfl
    rw [hdrop]
    show ∃ pre,
      (cs = pre ++
        (if startsJsonTag rest = true then rest.drop 4 else rest).dropWhile isWS) ∧
      braceFree pre
    by_cases htag : startsJsonTag rest = true
    · rw [if_pos htag]
      rcases rest with _ | ⟨a, _ | ⟨b, _ | ⟨c0, _ | ⟨d0, rest2⟩⟩⟩⟩
      · simp [startsJsonTag] at htag
      · simp [startsJsonTag] at htag
      · simp [startsJsonTag] at htag
      · simp [startsJsonTag] at htag
      · simp only [startsJsonTag, Bool.and_eq_true] at htag
        have ha : a ≠ '\x7b' ∧ a ≠ '\x7d' := by
          constructor <;> intro he <;> rw [he] at htag <;>
            exact absurd htag.1.1.1 (by decide)
        have hb : b ≠ '\x7b' ∧ b ≠ '\x7d' := by
          constructor <;> intro he <;> rw [he] at htag <;>
            exact absurd htag.1.1.2 (by decide)
        have hc0 : c0 ≠ '\x7b' ∧ c0 ≠ '\x7d' := by
          constructor <;> intro he <;> rw [he] at htag <;>
            exact absurd htag.1.2 (by decide)
        have hd0 : d0 ≠ '\x7b' ∧ d0 ≠ '\x7d' := by
          constructor <;> intro he <;> rw [he] at htag <;>
            exact absurd htag.2 (by decide)
        refine ⟨'`' :: '`' :: '`' :: a :: b :: c0 :: d0 ::
          rest2.takeWhile isWS, ?_, ?_⟩
        · rw [hrest]
          have hdrop4 : (a :: b :: c0 :: d0 :: rest2).drop 4 = rest2 := rfl
          rw [hdrop4]
          simp only [List.cons_append, List.cons.injEq, true_and]
          rw [List.takeWhile_append_dropWhile]
        · refine braceFree_cons (by decide) (braceFree_cons (by decide)
            (braceFree_cons (by decide) (braceFree_cons ha (braceFree_cons hb
              (braceFree_cons hc0 (braceFree_cons hd0 ?_))))))
          exact ws_braceFree (fun x hx => List.mem_takeWhile_imp hx)
    · rw [if_neg htag]
      refine ⟨'`' :: '`' :: '`' :: rest.takeWhile isWS, ?_, ?_⟩
      · rw [hrest]
        simp only [List.cons_append, List.cons.injEq, true_and]
        rw [List.takeWhile_append_dropWhile]
      · refine braceFree_cons (by decide) (braceFree_cons (by decide)
          (braceFree_cons (by decide) ?_))
        exact ws_braceFree (fun x hx => List.mem_takeWhile_imp hx)
  · rw [if_neg hp]
    exact ⟨[], rfl, braceFree_nil⟩

lemma stripTrailFence_decomp (cs : List Char) :
    ∃ suf, cs = stripTrailFence cs ++ suf ∧ braceFree suf := by
  unfold stripTrailFence
  set tws := cs.reverse.takeWhile isWS with htws
  have hws : braceFree tws.reverse :=
    ws_braceFree (fun x hx => List.mem_takeWhile_imp (List.mem_reverse.mp hx))
  by_cases hp : ['`', '`', '`'].isPrefixOf (cs.reverse.dropWhile isWS)
  · rw [if_pos hp]
    obtain ⟨rest, hrest⟩ :
        ∃ rest, cs.reverse.dropWhile isWS = '`' :: '`' :: '`' :: rest := by
      rcases List.isPrefixOf_iff_prefix.mp hp with ⟨t, ht⟩
      exact ⟨t, ht.symm⟩
    have hdrop : (cs.reverse.dropWhile isWS).drop 3 = rest := by rw [hrest]; rfl
    have hcs : cs.reverse = tws ++ ('`' :: '`' :: '`' :: rest) := by
      rw [htws, ← hrest, List.takeWhile_append_dropWhile]
    have hcs2 : cs = rest.reverse ++ ['`', '`', '`'] ++ tws.reverse := by
      have hrr : cs = (tws ++ ('`' :: '`' :: '`' :: rest)).reverse := by
        rw [← hcs, List.reverse_reverse]
      rw [hrr, List.reverse_append]
      simp [List.append_assoc]
    rw [hdrop]
    show ∃ suf,
      cs = (if rest.head? = some '\n' then rest.tail else rest).reverse ++ suf ∧
        braceFree suf
    by_cases hn : rest.head? = some '\n'
    · rw [if_pos hn]
      rcases rest with _ | ⟨x, rest2⟩
      · cases hn
      · have hx : x = '\n' := by simpa using hn
        subst hx
        refine ⟨'\n' :: '`' :: '`' :: '`' :: tws.reverse, ?_, ?_⟩
        · show cs = rest2.reverse ++ ('\n' :: '`' :: '`' :: '`' :: tws.reverse)
          rw [hcs2, List.reverse_cons]
          simp [List.append_assoc]
        · refine braceFree_cons (by decide) (braceFree_cons (by decide)
            (braceFree_cons (by decide) (braceFree_cons (by decide) hws)))
    · rw [if_neg hn]
      refine ⟨'`' :: '`' :: '`' :: tws.reverse, ?_, ?_⟩
      · rw [hcs2]
        simp [List.append_assoc]
      · refine braceFree_cons (by decide) (braceFree_cons (by decide)
          (braceFree_cons (by decide) hws))
  · rw [if_neg hp]
    exact ⟨[], (List.append_nil cs).symm, braceFree_nil⟩

lemma braceSlice_stripLeadFence (cs : List Char) :
    braceSlice (stripLeadFence cs) = braceSlice cs := by
  obtain ⟨pre, heq, hbf⟩ := stripLeadFence_decomp cs
  conv_rhs => rw [heq]
  exact (braceSlice_append_left hbf).symm

lemma braceSlice_stripTrailFence (cs : List Char) :
    braceSlice (stripTrailFence cs) = braceSlice cs := by
  obtain ⟨suf, heq, hbf⟩ := stripTrailFence_decomp cs
  conv_rhs => rw [heq]
  exact (braceSlice_append_right hbf).symm

/-- The brace span survives the whole trim-and-strip pipeline. -/
lemma braceSlice_fenceCore (s : String) :
    braceSlice (fenceCore s) = braceSlice s.data := by
  unfold fenceCore
  rw [braceSlice_trimWS, braceSlice_stripTrailFence, braceSlice_stripLeadFence,
    braceSlice_trimWS]

/-- The brace span of a fence-wrapped payload is that of the payload. -/
lemma braceSlice_wrapFenced (tag : Bool) (p : String) :
    braceSlice (wrapFenced tag p).data = braceSlice p.data := by
  have hdata : (wrapFenced tag p).data =
      (if tag then "```json\n" else "```\n").data ++ (p.data ++ "\n```".data) := by
    unfold wrapFenced
    rw [String.data_append, String.data_append, List.append_assoc]
  rw [hdata]
  cases tag
  · rw [braceSlice_append_left (by unfold braceFree; decide)]
    exact braceSlice_append_right (by unfold braceFree; decide)
  · rw [braceSlice_append_left (by unfold braceFree; decide)]
    exact braceSlice_append_right (by unfold braceFree; decide)

lemma getField_obj_of_arr {v : Js} {k : String} {l : List Js}
    (h : getField v k = Js.arr l) : ∃ fields, v = Js.obj fields := by
  cases v with
  | obj fields => exact ⟨fields, rfl⟩
  | undef => exact Js.noConfusion h
  | null => exact Js.noConfusion h
  | bool b => exact Js.noConfusion h
  | num q => exact Js.noConfusion h
  | str s => exact Js.noConfusion h
  | arr l2 => exact Js.noConfusion h

lemma gemini_ok_parses_obj {parse : String → Option Js} {content : String}
    {l : List Js} (h : geminiExtractItems parse content = Except.ok l) :
    ∃ fields, parse (extractJsonText content) = some (Js.obj fields) := by
  unfold geminiExtractItems at h
  cases hp : parse (extractJsonText content) with
  | none => rw [hp] at h; cases h
  | some v =>
    rw [hp] at h
    have h2 : (if jsFalsy v = true then Except.error GemError.noItemsArray
        else match getField v "items" with
          | Js.arr l2 => Except.ok l2
          | _ => Except.error GemError.noItemsArray) =
        (Except.ok l : Except GemError (List Js)) := h
    by_cases hf : jsFalsy v = true
    · rw [if_pos hf] at h2
      cases h2
    · rw [if_neg hf] at h2
      cases hgf : getField v "items" with
      | arr l2 =>
        obtain ⟨fields, hv⟩ := getField_obj_of_arr hgf
        exact ⟨fields, by rw [hv]⟩
      | undef => rw [hgf] at h2; cases h2
      | null => rw [hgf] at h2; cases h2
      | bool b => rw [hgf] at h2; cases h2
      | num q => rw [hgf] at h2; cases h2
      | str s => rw [hgf] at h2; cases h2
      | obj f2 => rw [hgf] at h2; cases h2

/-- C8: wrapping a raw payload in a fenced code block, with or without the
"json" language tag, does not change the item list the schema validator
extracts, for any parse routine that can only produce a JSON object from a
text containing a brace span. -/
theorem fenced_wrapping_preserves_items (parse : String → Option Js)
    (hparse : ∀ s fields, parse s = some (Js.obj fields) →
      (braceSlice s.data).isSome = true)
    (tag : Bool) (p : String) (l : List Js) :
    geminiExtractItems parse (wrapFenced tag p) = Except.ok l ↔
      geminiExtractItems parse p = Except.ok l := by
  have hw : braceSlice (fenceCore (wrapFenced tag p)) = braceSlice p.data := by
    rw [braceSlice_fenceCore, braceSlice_wrapFenced]
  have hu : braceSlice (fenceCore p) = braceSlice p.data := braceSlice_fenceCore p
  cases hj : braceSlice p.data with
  | some j =>
    have he : extractJsonText (wrapFenced tag p) = extractJsonText p := by
      unfold extractJsonText
      rw [hw, hu, hj]
    unfold geminiExtractItems
    rw [he]
  | none =>
    constructor
    · intro hok
      exfalso
      obtain ⟨fields, hp2⟩ := gemini_ok_parses_obj hok
      have := hparse _ _ hp2
      have hext : extractJsonText (wrapFenced tag p) =
          String.mk (fenceCore (wrapFenced tag p)) := by
        unfold extractJsonText
        rw [hw, hj]
      rw [hext] at this
      rw [show (String.mk (fenceCore (wrapFenced tag p))).data =
        fenceCore (wrapFenced tag p) from rfl] at this
      rw [hw, hj] at this
      cases this
    · intro hok
      exfalso
      obtain ⟨fields, hp2⟩ := gemini_ok_parses_obj hok
      have := hparse _ _ hp2
      have hext : extractJsonText p = String.mk (fenceCore p) := by
        unfold extractJsonText
        rw [hu, hj]
      rw [hext] at this
      rw [show (String.mk (fenceCore p)).data = fenceCore p from rfl] at this
      rw [hu, hj] at this
      cases this

/-- A parse stub that always fails. -/
def noneParse : String → Option Js := fun _ => none

/-- C8 witness at a concrete payload and the failing parse stub. -/
theorem fenced_wrapping_preserves_items_witness :
    geminiExtractItems noneParse (wrapFenced true "x") = Except.ok [] ↔
      geminiExtractItems noneParse "x" = Except.ok [] :=
  fenced_wrapping_preserves_items noneParse
    (fun _ _ h => Option.noConfusion h) true "x" []

end SnapShelf
